import Mathlib

/-!
Verification development for the incremental TTS synthesis pipeline of
vscode-eloquent (src/chunker.ts, src/narrationExtractor.ts and the
producer/consumer pair inside ChunkedSynthesizer.stream).

Strings are modelled as `List Char`.  JavaScript's regular expressions are
modelled by structurally recursive scanners whose observable behaviour is
argued, case by case, to coincide with the engine's (leftmost match, greedy
for a bare quantifier, lazy for `*?`, single-character lookbehind).  String
lengths are counted in code points rather than UTF-16 code units; the two
agree on all text without astral-plane characters.
-/

/-- ECMAScript whitespace (the class `\s`, which is also what `String.trim`
removes): TAB..CR, SPACE, NBSP, and the Unicode space separators. -/
def isWs (c : Char) : Bool :=
  decide ((9 ≤ c.toNat ∧ c.toNat ≤ 13) ∨ c.toNat = 32 ∨ c.toNat = 160 ∨
    c.toNat = 5760 ∨ (8192 ≤ c.toNat ∧ c.toNat ≤ 8202) ∨ c.toNat = 8232 ∨
    c.toNat = 8233 ∨ c.toNat = 8239 ∨ c.toNat = 8287 ∨ c.toNat = 12288 ∨
    c.toNat = 65279)

/-- Sentence-terminating characters of chunker.ts's split pattern
`(?<=[.!?;:\n])\s+`. -/
def isTerm (c : Char) : Bool :=
  decide (c = '.' ∨ c = '!' ∨ c = '?' ∨ c = ';' ∨ c = ':' ∨ c = '\n')

/-- Leading-whitespace removal, one half of JavaScript's `String.trim`. -/
def trimLeft (s : List Char) : List Char := s.dropWhile isWs

/-- Trailing-whitespace removal, the other half of `String.trim`. -/
def trimRight (s : List Char) : List Char := (s.reverse.dropWhile isWs).reverse

/-- JavaScript's `String.prototype.trim`. -/
def trim (s : List Char) : List Char := trimRight (trimLeft s)

/-- Does the list start with a whitespace character? -/
def firstIsWs : List Char → Bool
  | [] => false
  | c :: _ => isWs c

/-- Scanner for `text.split(/(?<=[.!?;:\n])\s+/)` from chunker.ts.

The regex splits at every maximal whitespace run whose preceding character
is a sentence terminator.  The scanner walks the text once: `some acc`
means it is inside a piece whose characters so far are `acc` (reversed),
`none` means it is consuming a separator run.  A piece ends exactly when
the character just appended is a terminator and the next character is
whitespace, which is precisely the lookbehind condition of the regex; the
separator run then swallows the following whitespace greedily, as `\s+`
does.  A separator run at the very end of the text yields a final empty
piece, as JavaScript's `split` does. -/
def splitScan : Option (List Char) → List Char → List (List Char)
  | st, [] => [(st.getD []).reverse]
  | none, c :: rest =>
    if isWs c then splitScan none rest
    else if isTerm c && firstIsWs rest then [c] :: splitScan none rest
    else splitScan (some [c]) rest
  | some acc, c :: rest =>
    if isTerm c && firstIsWs rest then (c :: acc).reverse :: splitScan none rest
    else splitScan (some (c :: acc)) rest

/-- The piece list chunker.ts calls `raw`. -/
def splitRaw (s : List Char) : List (List Char) := splitScan (some []) s

/-- One iteration of chunker.ts's accumulation loop over `raw`: trim the
piece (`seg`), skip it when empty, and either push `current` (when appending
`seg` would exceed the applicable limit) or merge `seg` into `current`.  The
state is the pair (chunks so far, current); the applicable limit is
`firstChunkMax` while no chunk has been pushed yet, `maxChars` after. -/
def chunkStep (maxChars firstChunkMax : Nat) (st : List (List Char) × List Char)
    (piece : List Char) : List (List Char) × List Char :=
  if trim piece = [] then st
  else if st.2 ≠ [] ∧ st.2.length + 1 + (trim piece).length >
      (if st.1 = [] then firstChunkMax else maxChars) then (st.1 ++ [st.2], trim piece)
  else (st.1, if st.2 = [] then trim piece else st.2 ++ ' ' :: trim piece)

/-- chunker.ts's trailing `if (current) chunks.push(current)`. -/
def chunkFinish (st : List (List Char) × List Char) : List (List Char) :=
  if st.2 = [] then st.1 else st.1 ++ [st.2]

/-- chunker.ts's `chunkText(text, maxChars = 135, firstChunkMax = 60)`:
trim, return `[]` for blank input, split into sentence pieces, accumulate
pieces into chunks under the applicable limit, and append the leftover
`current` if any. -/
def chunkText (text : List Char) (maxChars : Nat := 135) (firstChunkMax : Nat := 60) :
    List (List Char) :=
  if trim text = [] then []
  else chunkFinish ((splitRaw (trim text)).foldl (chunkStep maxChars firstChunkMax) ([], []))


/-- ASCII lower-casing, the effect of the regex flag `i` on the ASCII tag
literals of narrationExtractor.ts. -/
def asciiLower (c : Char) : Char :=
  if 65 ≤ c.toNat ∧ c.toNat ≤ 90 then Char.ofNat (c.toNat + 32) else c

/-- Does `s` begin with the (lower-case) pattern, compared case-insensitively? -/
def startsWithCI (pat s : List Char) : Bool :=
  decide ((s.take pat.length).map asciiLower = pat)

/-- Leftmost case-insensitive occurrence of `pat` in `s`: the text before the
occurrence and the text after it, or `none`.  This is what one step of the
regex engine's scan for a literal pattern observes. -/
def splitFirstCI (pat : List Char) : List Char → Option (List Char × List Char)
  | [] => none
  | c :: rest =>
    if startsWithCI pat (c :: rest) then some ([], (c :: rest).drop pat.length)
    else
      match splitFirstCI pat rest with
      | some (pre, post) => some (c :: pre, post)
      | none => none

/-- Is there a case-insensitive occurrence of `pat` in `s`? -/
def containsCI (pat : List Char) (s : List Char) : Bool := (splitFirstCI pat s).isSome

/-- The opening narration marker of narrationExtractor.ts. -/
def speakOpen : List Char := '<' :: 's' :: 'p' :: 'e' :: 'a' :: 'k' :: '>' :: []

/-- The closing narration marker of narrationExtractor.ts. -/
def speakClose : List Char := '<' :: '/' :: 's' :: 'p' :: 'e' :: 'a' :: 'k' :: '>' :: []

/-- Number of case-insensitive occurrences of `pat`, counted left to right by
start position.  JavaScript's `text.match(/pat/gi).length` counts leftmost
non-overlapping occurrences; for the two tag literals, which have no
non-trivial border (no proper prefix equal to a proper suffix), occurrences
cannot overlap, so counting every start position gives the same number. -/
def countCI (pat : List Char) : List Char → Nat
  | [] => 0
  | c :: rest => (if startsWithCI pat (c :: rest) then 1 else 0) + countCI pat rest

/-- narrationExtractor.ts's `hasIncompleteNarration`: strictly more opening
than closing tags. -/
def hasIncompleteNarration (s : List Char) : Bool :=
  decide (countCI speakClose s < countCI speakOpen s)

/-- The body list produced by the `exec` loop of narrationExtractor.ts over
`/<speak>([\s\S]*?)<\/speak>/gi`: each iteration finds the leftmost opening
tag, then (lazy `*?`) the nearest closing tag after it, captures the text
between them, and resumes after the closing tag.  When either tag is missing
the engine finds no further match (a later opening tag would need a closing
tag after it, and there is none).  One unit of fuel is spent per match; each
match consumes at least one character, so `s.length + 1` units always
suffice. -/
def extractLoop (pat₁ pat₂ : List Char) : Nat → List Char → List (List Char)
  | 0, _ => []
  | fuel + 1, s =>
    match splitFirstCI pat₁ s with
    | none => []
    | some (_, afterOpen) =>
      match splitFirstCI pat₂ afterOpen with
      | none => []
      | some (inner, afterClose) => inner :: extractLoop pat₁ pat₂ fuel afterClose

/-- narrationExtractor.ts's `extractNarration`: trim each captured body, skip
the blank ones, and join the rest with a blank line. -/
def extractNarration (s : List Char) : List Char :=
  List.intercalate ('\n' :: '\n' :: [])
    (((extractLoop speakOpen speakClose (s.length + 1) s).map trim).filter (· ≠ []))

/-- The concatenation of a chunk list with single spaces between chunks, the
text a reader of the synthesized segments hears in order. -/
def joinSp : List (List Char) → List Char
  | [] => []
  | [a] => a
  | a :: b :: r => a ++ ' ' :: joinSp (b :: r)

/-- Non-whitespace characters, the content preserved by chunking. -/
def nonWs (c : Char) : Bool := !isWs c



/-! ### Chunking preserves the non-whitespace text, in order (claim C1's core) -/

theorem filter_nonWs_dropWhile (s : List Char) :
    (s.dropWhile isWs).filter nonWs = s.filter nonWs := by
  induction s with
  | nil => rfl
  | cons c rest ih =>
    by_cases h : isWs c
    · simp [List.dropWhile_cons, h, List.filter_cons, nonWs, ih]
    · simp [List.dropWhile_cons, h]

theorem filter_nonWs_trimLeft (s : List Char) :
    (trimLeft s).filter nonWs = s.filter nonWs :=
  filter_nonWs_dropWhile s

theorem filter_nonWs_trimRight (s : List Char) :
    (trimRight s).filter nonWs = s.filter nonWs := by
  have h := filter_nonWs_dropWhile s.reverse
  have h2 : ((s.reverse.dropWhile isWs).reverse).filter nonWs
      = ((s.reverse.dropWhile isWs).filter nonWs).reverse := by
    simp [List.filter_reverse]
  rw [trimRight, h2, h, List.filter_reverse, List.reverse_reverse]

theorem filter_nonWs_trim (s : List Char) :
    (trim s).filter nonWs = s.filter nonWs := by
  rw [trim, filter_nonWs_trimRight, filter_nonWs_trimLeft]

theorem filter_nonWs_join_splitScan (s : List Char) (st : Option (List Char)) :
    ((splitScan st s).flatten).filter nonWs = ((st.getD []).reverse ++ s).filter nonWs := by
  induction s generalizing st with
  | nil => simp [splitScan]
  | cons c rest ih =>
    match st with
    | none =>
      cases hws : isWs c with
      | true =>
        have hnw : nonWs c = false := by simp [nonWs, hws]
        simp [splitScan, hws, ih none, List.filter_cons, hnw]
      | false =>
        cases hsp : (isTerm c && firstIsWs rest) with
        | true =>
          simp [splitScan, hws, hsp, ih none, List.filter_append, List.filter_cons]
        | false =>
          simp [splitScan, hws, hsp, ih (some [c]), List.filter_cons]
    | some acc =>
      cases hsp : (isTerm c && firstIsWs rest) with
      | true =>
        simp [splitScan, hsp, ih none, List.filter_append, List.filter_cons]
      | false =>
        simp [splitScan, hsp, ih (some (c :: acc)), List.filter_append, List.filter_cons]

theorem filter_nonWs_join_splitRaw (s : List Char) :
    ((splitRaw s).flatten).filter nonWs = s.filter nonWs := by
  have h := filter_nonWs_join_splitScan s (some [])
  simpa [splitRaw] using h

theorem nonWs_space : nonWs ' ' = false := by decide

theorem filter_nonWs_chunkStep (m f : Nat) (st : List (List Char) × List Char)
    (p : List Char) :
    ((chunkStep m f st p).1.flatten ++ (chunkStep m f st p).2).filter nonWs =
      ((st.1.flatten ++ st.2).filter nonWs) ++ p.filter nonWs := by
  have hp : (trim p).filter nonWs = p.filter nonWs := filter_nonWs_trim p
  by_cases h0 : trim p = []
  · have hpz : p.filter nonWs = [] := by rw [← hp, h0]; rfl
    simp [chunkStep, h0, hpz]
  · by_cases h1 : st.2 ≠ [] ∧ st.2.length + 1 + (trim p).length >
        (if st.1 = [] then f else m)
    · unfold chunkStep
      rw [if_neg h0, if_pos h1]
      simp [List.filter_append, hp]
    · unfold chunkStep
      rw [if_neg h0, if_neg h1]
      by_cases h2 : st.2 = []
      · simp [h2, List.filter_append, hp]
      · simp [h2, List.filter_append, List.filter_cons, nonWs_space, hp]

theorem filter_nonWs_foldl (m f : Nat) (ps : List (List Char))
    (st : List (List Char) × List Char) :
    ((ps.foldl (chunkStep m f) st).1.flatten ++ (ps.foldl (chunkStep m f) st).2).filter nonWs
      = ((st.1.flatten ++ st.2).filter nonWs) ++ (ps.flatten).filter nonWs := by
  induction ps generalizing st with
  | nil => simp
  | cons p ps ih =>
    simp only [List.foldl_cons, List.flatten_cons]
    rw [ih (chunkStep m f st p), filter_nonWs_chunkStep]
    simp [List.filter_append]

theorem filter_nonWs_joinSp (L : List (List Char)) :
    (joinSp L).filter nonWs = (L.flatten).filter nonWs := by
  induction L with
  | nil => rfl
  | cons a L ih =>
    cases L with
    | nil => simp [joinSp]
    | cons b M =>
      simp only [joinSp, List.flatten_cons]
      rw [List.filter_append, List.filter_cons]
      rw [List.filter_append]
      simp only [nonWs_space, ih]
      simp [List.filter_append]

theorem filter_nonWs_chunkFinish (st : List (List Char) × List Char) :
    ((chunkFinish st).flatten).filter nonWs = (st.1.flatten ++ st.2).filter nonWs := by
  unfold chunkFinish
  split_ifs with h2
  · simp [h2]
  · simp [List.filter_append]

/-- Chunking drops or duplicates no non-whitespace character and keeps the
original order: reading the chunks of `chunkText` in order, separated by
single spaces, gives back exactly the input's non-whitespace text. -/
theorem chunkText_join_filter (t : List Char) (m f : Nat) :
    (joinSp (chunkText t m f)).filter nonWs = t.filter nonWs := by
  by_cases h : trim t = []
  · have : t.filter nonWs = [] := by rw [← filter_nonWs_trim, h]; rfl
    simp [chunkText, h, this, joinSp]
  · rw [chunkText, if_neg h, filter_nonWs_joinSp, filter_nonWs_chunkFinish,
      filter_nonWs_foldl, filter_nonWs_join_splitRaw, filter_nonWs_trim]
    simp

/-! ### Chunks are nonempty and carry no whitespace at either end (claim C10) -/

theorem trimRight_eq_rdropWhile (s : List Char) : trimRight s = s.rdropWhile isWs := rfl

/-- A well-formed segment: nonempty and unchanged by trimming either end. -/
def SegGood (c : List Char) : Prop := c ≠ [] ∧ trimLeft c = c ∧ trimRight c = c

theorem SegGood.trim_eq {c : List Char} (h : SegGood c) : trim c = c := by
  rw [trim, h.2.1, h.2.2]

theorem trimLeft_trimRight_comm (x : List Char) (hx : trimLeft x = x) :
    trimLeft (trimRight x) = trimRight x := by
  obtain ⟨u, hu⟩ := (trimRight_eq_rdropWhile x ▸ List.rdropWhile_prefix isWs x :
    trimRight x <+: x)
  rcases htr : trimRight x with _ | ⟨c, y⟩
  · rfl
  · rw [htr] at hu
    have hx2 : x = c :: (y ++ u) := by rw [← hu]; simp
    subst hx2
    have hc : isWs c = false := by
      rw [trimLeft, List.dropWhile_eq_self_iff] at hx
      simpa using hx (by simp)
    simp [trimLeft, List.dropWhile_cons, hc]

theorem segGood_trim (p : List Char) (h : trim p ≠ []) : SegGood (trim p) := by
  refine ⟨h, ?_, ?_⟩
  · exact trimLeft_trimRight_comm (trimLeft p) (by
      simp only [trimLeft]; exact List.dropWhile_idempotent _ _)
  · rw [trim, trimRight_eq_rdropWhile, trimRight_eq_rdropWhile,
      List.rdropWhile_idempotent]

theorem segGood_merge {a b : List Char} (ha : SegGood a) (hb : SegGood b) :
    SegGood (a ++ ' ' :: b) := by
  obtain ⟨hane, hal, har⟩ := ha
  obtain ⟨hbne, hbl, hbr⟩ := hb
  refine ⟨by simp, ?_, ?_⟩
  · match a, hane with
    | c :: a2, _ =>
      have hc : isWs c = false := by
        rw [trimLeft, List.dropWhile_eq_self_iff] at hal
        have := hal (by simp)
        simpa using this
      simp [trimLeft, List.dropWhile_cons, hc]
  · rw [trimRight_eq_rdropWhile, List.rdropWhile_eq_self_iff]
    intro hl
    have hlast : (a ++ ' ' :: b).getLast hl = b.getLast hbne := by
      rw [List.getLast_append_of_ne_nil, List.getLast_cons hbne]
    rw [hlast]
    rw [trimRight_eq_rdropWhile, List.rdropWhile_eq_self_iff] at hbr
    exact hbr hbne

/-- Invariant of the accumulation state: pushed chunks are well formed, and
`current` is empty or well formed. -/
def StGood (st : List (List Char) × List Char) : Prop :=
  (∀ c ∈ st.1, SegGood c) ∧ (st.2 = [] ∨ SegGood st.2)

theorem stGood_chunkStep (m f : Nat) (st : List (List Char) × List Char)
    (p : List Char) (h : StGood st) : StGood (chunkStep m f st p) := by
  by_cases h0 : trim p = []
  · simpa [chunkStep, h0] using h
  · have hseg := segGood_trim p h0
    by_cases h1 : st.2 ≠ [] ∧ st.2.length + 1 + (trim p).length >
        (if st.1 = [] then f else m)
    · unfold chunkStep
      rw [if_neg h0, if_pos h1]
      refine ⟨?_, Or.inr hseg⟩
      intro c hc
      rcases List.mem_append.mp hc with hc | hc
      · exact h.1 c hc
      · rcases List.mem_singleton.mp hc with rfl
        rcases h.2 with h2 | h2
        · exact absurd h2 h1.1
        · exact h2
    · unfold chunkStep
      rw [if_neg h0, if_neg h1]
      by_cases h2 : st.2 = []
      · exact ⟨h.1, by simp [h2, Or.inr hseg]⟩
      · refine ⟨h.1, Or.inr ?_⟩
        simp only [h2, if_neg h2]
        rcases h.2 with h3 | h3
        · exact absurd h3 h2
        · exact segGood_merge h3 hseg

theorem stGood_foldl (m f : Nat) (ps : List (List Char))
    (st : List (List Char) × List Char) (h : StGood st) :
    StGood (ps.foldl (chunkStep m f) st) := by
  induction ps generalizing st with
  | nil => exact h
  | cons p ps ih => exact ih _ (stGood_chunkStep m f st p h)

/-- Every chunk `chunkText` produces is nonempty and has no leading or
trailing whitespace; in particular it contains a non-whitespace character. -/
theorem chunkText_segGood (t : List Char) (m f : Nat) :
    ∀ c ∈ chunkText t m f, c ≠ [] ∧ trim c = c := by
  intro c hc
  by_cases h : trim t = []
  · rw [chunkText, if_pos h] at hc
    exact absurd hc (List.not_mem_nil c)
  · rw [chunkText, if_neg h] at hc
    have hst := stGood_foldl m f (splitRaw (trim t)) ([], [])
      ⟨by intro c hc; exact absurd hc (List.not_mem_nil c), Or.inl rfl⟩
    set st := (splitRaw (trim t)).foldl (chunkStep m f) ([], []) with hstdef
    unfold chunkFinish at hc
    split_ifs at hc with h2
    · have := hst.1 c hc
      exact ⟨this.1, this.trim_eq⟩
    · rcases List.mem_append.mp hc with hc | hc
      · have := hst.1 c hc
        exact ⟨this.1, this.trim_eq⟩
      · rcases List.mem_singleton.mp hc with rfl
        rcases hst.2 with h3 | h3
        · exact absurd h3 h2
        · exact ⟨h3.1, h3.trim_eq⟩

/-! ### Prefix stability of chunkText under extension (claim C7) -/

/-- The scanner state left after consuming the whole input, mirroring
`splitScan` branch for branch. -/
def scanState : Option (List Char) → List Char → Option (List Char)
  | st, [] => st
  | none, c :: rest =>
    if isWs c then scanState none rest
    else if isTerm c && firstIsWs rest then scanState none rest
    else scanState (some [c]) rest
  | some acc, c :: rest =>
    if isTerm c && firstIsWs rest then scanState none rest
    else scanState (some (c :: acc)) rest

theorem splitScan_none_cons_ws {d : Char} (h : isWs d = true) (tail : List Char) :
    splitScan none (d :: tail) = splitScan none tail := by
  simp [splitScan, h]

theorem splitScan_none_cons {d : Char} (h : isWs d = false) (tail : List Char) :
    splitScan none (d :: tail) =
      if isTerm d && firstIsWs tail then [d] :: splitScan none tail
      else splitScan (some [d]) tail := by
  simp [splitScan, h]

theorem splitScan_some_cons (acc : List Char) (d : Char) (tail : List Char) :
    splitScan (some acc) (d :: tail) =
      if isTerm d && firstIsWs tail then (d :: acc).reverse :: splitScan none tail
      else splitScan (some (d :: acc)) tail := rfl

theorem scanState_none_cons_ws {d : Char} (h : isWs d = true) (tail : List Char) :
    scanState none (d :: tail) = scanState none tail := by
  simp [scanState, h]

theorem scanState_none_cons {d : Char} (h : isWs d = false) (tail : List Char) :
    scanState none (d :: tail) =
      if isTerm d && firstIsWs tail then scanState none tail
      else scanState (some [d]) tail := by
  simp [scanState, h]

theorem scanState_some_cons (acc : List Char) (d : Char) (tail : List Char) :
    scanState (some acc) (d :: tail) =
      if isTerm d && firstIsWs tail then scanState none tail
      else scanState (some (d :: acc)) tail := rfl

theorem splitScan_ne_nil (st : Option (List Char)) (s : List Char) :
    splitScan st s ≠ [] := by
  induction s generalizing st with
  | nil => simp [splitScan]
  | cons c rest ih =>
    match st with
    | none =>
      cases hws : isWs c with
      | true => simp [splitScan, hws, ih none]
      | false =>
        cases hsp : (isTerm c && firstIsWs rest) with
        | true => simp [splitScan, hws, hsp]
        | false => simp [splitScan, hws, hsp, ih (some [c])]
    | some acc =>
      cases hsp : (isTerm c && firstIsWs rest) with
      | true => simp [splitScan, hsp]
      | false => simp [splitScan, hsp, ih (some (c :: acc))]

theorem splitScan_eq_dropLast_append (st : Option (List Char)) (s : List Char) :
    splitScan st s = (splitScan st s).dropLast ++ [((scanState st s).getD []).reverse] := by
  induction s generalizing st with
  | nil => simp [splitScan, scanState]
  | cons c rest ih =>
    match st with
    | none =>
      cases hws : isWs c with
      | true => simp only [splitScan, scanState, hws, if_true]; exact ih none
      | false =>
        cases hsp : (isTerm c && firstIsWs rest) with
        | true =>
          simp only [splitScan, scanState, hws, hsp, Bool.false_eq_true, if_false, if_true]
          rw [List.dropLast_cons_of_ne_nil (splitScan_ne_nil none rest)]
          simp only [List.cons_append]
          rw [← ih none]
        | false =>
          simp only [splitScan, scanState, hws, hsp]
          exact ih (some [c])
    | some acc =>
      cases hsp : (isTerm c && firstIsWs rest) with
      | true =>
        simp only [splitScan, scanState, hsp, if_true]
        rw [List.dropLast_cons_of_ne_nil (splitScan_ne_nil none rest)]
        simp only [List.cons_append]
        rw [← ih none]
      | false =>
        simp only [splitScan, scanState, hsp]
        exact ih (some (c :: acc))

theorem firstIsWs_append_left (s0 : List Char) (c : Char) (x : List Char) :
    firstIsWs ((s0 ++ [c]) ++ x) = firstIsWs (s0 ++ [c]) := by
  cases s0 with
  | nil => rfl
  | cons e s0 => rfl

theorem splitScan_append (s0 : List Char) (c : Char) (ext : List Char)
    (st : Option (List Char)) (hc : isWs c = false) :
    splitScan st ((s0 ++ [c]) ++ ext) =
      if isTerm c && firstIsWs ext
      then splitScan st (s0 ++ [c]) ++ splitScan none ext
      else (splitScan st (s0 ++ [c])).dropLast ++
        splitScan (scanState st (s0 ++ [c])) ext := by
  induction s0 generalizing st with
  | nil =>
    match st with
    | none =>
      have h1 : splitScan none (c :: ext) =
          if isTerm c && firstIsWs ext then [c] :: splitScan none ext
          else splitScan (some [c]) ext := by
        simp [splitScan, hc]
      have h2 : splitScan none [c] = [[c]] := by
        simp [splitScan, hc, firstIsWs]
      have h3 : scanState none [c] = some [c] := by
        simp [scanState, hc, firstIsWs]
      simp only [List.nil_append, List.singleton_append, h1, h2, h3]
      cases hcond : (isTerm c && firstIsWs ext) with
      | true => simp
      | false => simp [splitScan]
    | some acc =>
      have h1 : splitScan (some acc) (c :: ext) =
          if isTerm c && firstIsWs ext then (c :: acc).reverse :: splitScan none ext
          else splitScan (some (c :: acc)) ext := rfl
      have h2 : splitScan (some acc) [c] = [(c :: acc).reverse] := by
        simp [splitScan, firstIsWs]
      have h3 : scanState (some acc) [c] = some (c :: acc) := by
        simp [scanState, firstIsWs]
      simp only [List.nil_append, List.singleton_append, h1, h2, h3]
      cases hcond : (isTerm c && firstIsWs ext) with
      | true => simp
      | false => simp [splitScan]
  | cons d s0 ih =>
    have hfw := firstIsWs_append_left s0 c ext
    have hxx : (d :: s0 ++ [c]) ++ ext = d :: ((s0 ++ [c]) ++ ext) := by simp
    match st with
    | none =>
      cases hws : isWs d with
      | true =>
        simp only [hxx, List.cons_append]
        rw [splitScan_none_cons_ws hws, splitScan_none_cons_ws hws,
          scanState_none_cons_ws hws]
        exact ih none
      | false =>
        simp only [hxx, List.cons_append]
        rw [splitScan_none_cons hws, splitScan_none_cons hws,
          scanState_none_cons hws, hfw]
        cases hsp : (isTerm d && firstIsWs (s0 ++ [c])) with
        | true =>
          simp only [if_true]
          rw [ih none]
          cases hcond : (isTerm c && firstIsWs ext) with
          | true => simp
          | false =>
            simp only [Bool.false_eq_true, if_false]
            rw [List.dropLast_cons_of_ne_nil (splitScan_ne_nil none (s0 ++ [c]))]
            simp
        | false =>
          simp only [Bool.false_eq_true, if_false]
          exact ih (some [d])
    | some acc =>
      simp only [hxx, List.cons_append]
      rw [splitScan_some_cons, splitScan_some_cons, scanState_some_cons, hfw]
      cases hsp : (isTerm d && firstIsWs (s0 ++ [c])) with
      | true =>
        simp only [if_true]
        rw [ih none]
        cases hcond : (isTerm c && firstIsWs ext) with
        | true => simp
        | false =>
          simp only [Bool.false_eq_true, if_false]
          rw [List.dropLast_cons_of_ne_nil (splitScan_ne_nil none (s0 ++ [c]))]
          simp
      | false =>
        simp only [Bool.false_eq_true, if_false]
        exact ih (some (d :: acc))

theorem splitScan_some_head (acc : List Char) (l : List Char) :
    ∃ u rest, splitScan (some acc) l = (acc.reverse ++ u) :: rest := by
  induction l generalizing acc with
  | nil => exact ⟨[], [], by simp [splitScan]⟩
  | cons d l ih =>
    rw [splitScan_some_cons]
    cases hsp : (isTerm d && firstIsWs l) with
    | true =>
      refine ⟨[d], splitScan none l, ?_⟩
      simp
    | false =>
      obtain ⟨u, rest, h⟩ := ih (d :: acc)
      refine ⟨d :: u, rest, ?_⟩
      simp only [Bool.false_eq_true, if_false]
      rw [h]
      simp

theorem scanState_append_last (s0 : List Char) (c : Char) (hc : isWs c = false)
    (st : Option (List Char)) :
    ∃ acc2, scanState st (s0 ++ [c]) = some (c :: acc2) := by
  induction s0 generalizing st with
  | nil =>
    match st with
    | none =>
      refine ⟨[], ?_⟩
      simp [scanState, hc, firstIsWs]
    | some acc =>
      refine ⟨acc, ?_⟩
      simp [scanState, firstIsWs]
  | cons d s0 ih =>
    have hxx : (d :: s0) ++ [c] = d :: (s0 ++ [c]) := by simp
    rw [hxx]
    match st with
    | none =>
      cases hws : isWs d with
      | true => rw [scanState_none_cons_ws hws]; exact ih none
      | false =>
        rw [scanState_none_cons hws]
        cases hsp : (isTerm d && firstIsWs (s0 ++ [c])) with
        | true => simp only [if_true]; exact ih none
        | false => simp only [Bool.false_eq_true, if_false]; exact ih (some [d])
    | some acc =>
      rw [scanState_some_cons]
      cases hsp : (isTerm d && firstIsWs (s0 ++ [c])) with
      | true => simp only [if_true]; exact ih none
      | false => simp only [Bool.false_eq_true, if_false]; exact ih (some (d :: acc))

theorem chunkStep_fst_extend (m f : Nat) (st : List (List Char) × List Char)
    (p : List Char) : ∃ D, (chunkStep m f st p).1 = st.1 ++ D := by
  unfold chunkStep
  split_ifs <;> first
  | exact ⟨[st.2], rfl⟩
  | exact ⟨[], by simp⟩

theorem foldl_chunkStep_fst_extend (m f : Nat) (L : List (List Char))
    (st : List (List Char) × List Char) :
    ∃ D, (L.foldl (chunkStep m f) st).1 = st.1 ++ D := by
  induction L generalizing st with
  | nil => exact ⟨[], by simp⟩
  | cons p L ih =>
    obtain ⟨D0, h0⟩ := chunkStep_fst_extend m f st p
    obtain ⟨D1, h1⟩ := ih (chunkStep m f st p)
    exact ⟨D0 ++ D1, by rw [List.foldl_cons, h1, h0, List.append_assoc]⟩

theorem chunkFinish_extend (st : List (List Char) × List Char) :
    ∃ E, chunkFinish st = st.1 ++ E ∧ E.length ≤ 1 := by
  unfold chunkFinish
  split_ifs
  · exact ⟨[], by simp, by simp⟩
  · exact ⟨[st.2], rfl, by simp⟩

theorem chunkFinish_take_stable (m f : Nat) (st : List (List Char) × List Char)
    (Q : List (List Char)) :
    (chunkFinish (Q.foldl (chunkStep m f) st)).take ((chunkFinish st).length - 1)
      = (chunkFinish st).take ((chunkFinish st).length - 1) := by
  obtain ⟨D, hD⟩ := foldl_chunkStep_fst_extend m f Q st
  obtain ⟨E1, hE1, _⟩ := chunkFinish_extend (Q.foldl (chunkStep m f) st)
  obtain ⟨E0, hE0, hE0len⟩ := chunkFinish_extend st
  have hlen : (chunkFinish st).length - 1 ≤ st.1.length := by
    rw [hE0, List.length_append]
    omega
  set k := (chunkFinish st).length - 1 with hk
  rw [hE1, hD, List.append_assoc, List.take_append_of_le_length hlen, hE0,
    List.take_append_of_le_length hlen]

theorem chunkStep_last_take_stable (m f : Nat) (st : List (List Char) × List Char)
    (q q2 : List Char) (Q2 : List (List Char))
    (hq : trim q ≠ []) (hlen : (trim q).length ≤ (trim q2).length) :
    (chunkFinish (Q2.foldl (chunkStep m f) (chunkStep m f st q2))).take
        ((chunkFinish (chunkStep m f st q)).length - 1)
      = (chunkFinish (chunkStep m f st q)).take
        ((chunkFinish (chunkStep m f st q)).length - 1) := by
  obtain ⟨D, hD⟩ := foldl_chunkStep_fst_extend m f Q2 (chunkStep m f st q2)
  obtain ⟨E1, hE1, _⟩ := chunkFinish_extend (Q2.foldl (chunkStep m f) (chunkStep m f st q2))
  by_cases hpush : st.2 ≠ [] ∧ st.2.length + 1 + (trim q).length >
      (if st.1 = [] then f else m)
  · have hq2 : trim q2 ≠ [] := by
      intro hz
      rw [hz, List.length_nil] at hlen
      exact hq (List.eq_nil_of_length_eq_zero (Nat.le_zero.mp hlen))
    have hpush2 : st.2 ≠ [] ∧ st.2.length + 1 + (trim q2).length >
        (if st.1 = [] then f else m) := ⟨hpush.1, by omega⟩
    have h1 : chunkStep m f st q = (st.1 ++ [st.2], trim q) := by
      unfold chunkStep
      rw [if_neg hq, if_pos hpush]
    have h12 : chunkStep m f st q2 = (st.1 ++ [st.2], trim q2) := by
      unfold chunkStep
      rw [if_neg hq2, if_pos hpush2]
    have h2 : chunkFinish (chunkStep m f st q) = (st.1 ++ [st.2]) ++ [trim q] := by
      rw [h1]
      unfold chunkFinish
      rw [if_neg hq]
    have hn : (chunkFinish (chunkStep m f st q)).length - 1 = (st.1 ++ [st.2]).length := by
      rw [h2]
      simp
    have hD2 : (Q2.foldl (chunkStep m f) (chunkStep m f st q2)).1
        = (st.1 ++ [st.2]) ++ D := by
      rw [hD, h12]
    rw [hn, hE1, hD2, List.append_assoc, List.take_left, h2, List.take_left]
  · obtain ⟨D0, hD0⟩ := chunkStep_fst_extend m f st q2
    have h1 : (chunkStep m f st q).1 = st.1 ∧ (chunkStep m f st q).2 ≠ [] := by
      unfold chunkStep
      rw [if_neg hq, if_neg hpush]
      refine ⟨rfl, ?_⟩
      by_cases h2 : st.2 = []
      · simp [h2, hq]
      · simp [h2]
    have h3 : chunkFinish (chunkStep m f st q) = st.1 ++ [(chunkStep m f st q).2] := by
      unfold chunkFinish
      rw [if_neg h1.2, h1.1]
    have hn : (chunkFinish (chunkStep m f st q)).length - 1 = st.1.length := by
      rw [h3]
      simp
    have hD2 : (Q2.foldl (chunkStep m f) (chunkStep m f st q2)).1
        = st.1 ++ (D0 ++ D) := by
      rw [hD, hD0, List.append_assoc]
    rw [hn, hE1, hD2, List.append_assoc, List.take_left, h3, List.take_left]

theorem head_not_ws_of_trimLeft_self {c : Char} {a2 : List Char}
    (ha : trimLeft (c :: a2) = c :: a2) : isWs c = false := by
  by_contra hcon
  have h2 : isWs c = true := by simpa using hcon
  unfold trimLeft at ha
  rw [List.dropWhile_cons, if_pos h2] at ha
  have hlen := congrArg List.length ha
  have h3 := (@List.dropWhile_suffix Char a2 isWs).length_le
  simp at hlen
  omega

theorem trimRight_append_self (a b : List Char) (ha : trimRight a = a) :
    trimRight (a ++ b) = a ++ trimRight b := by
  show ((a ++ b).reverse.dropWhile isWs).reverse = a ++ trimRight b
  rw [List.reverse_append, List.dropWhile_append]
  by_cases hb : (b.reverse.dropWhile isWs).isEmpty
  · rw [if_pos hb]
    have hbnil : trimRight b = [] := by
      show (b.reverse.dropWhile isWs).reverse = []
      rw [List.isEmpty_iff.mp hb]
      rfl
    rw [hbnil, List.append_nil]
    exact ha
  · rw [if_neg hb, List.reverse_append, List.reverse_reverse]
    rfl

theorem trim_extend_of_last (s0 : List Char) (c : Char) (u : List Char)
    (hc : isWs c = false) :
    trim ((s0 ++ [c]) ++ u) = trim (s0 ++ [c]) ++ trimRight u ∧ trim (s0 ++ [c]) ≠ [] := by
  have h1 : trimLeft (s0 ++ [c]) ≠ [] := by
    show (s0 ++ [c]).dropWhile isWs ≠ []
    rw [Ne, List.dropWhile_eq_nil_iff]
    push_neg
    exact ⟨c, by simp, by simp [hc]⟩
  have h2 : ∃ s1, trimLeft (s0 ++ [c]) = s1 ++ [c] := by
    show ∃ s1, (s0 ++ [c]).dropWhile isWs = s1 ++ [c]
    rw [List.dropWhile_append]
    by_cases hs : (s0.dropWhile isWs).isEmpty
    · rw [if_pos hs]
      exact ⟨[], by simp [List.dropWhile_cons, hc]⟩
    · rw [if_neg hs]
      exact ⟨s0.dropWhile isWs, rfl⟩
  obtain ⟨s1, hs1⟩ := h2
  have h3 : trimRight (trimLeft (s0 ++ [c])) = trimLeft (s0 ++ [c]) := by
    rw [hs1]
    show ((s1 ++ [c]).reverse.dropWhile isWs).reverse = s1 ++ [c]
    rw [List.reverse_append]
    simp [List.dropWhile_cons, hc]
  have h4 : trimLeft ((s0 ++ [c]) ++ u) = trimLeft (s0 ++ [c]) ++ u := by
    show ((s0 ++ [c]) ++ u).dropWhile isWs = (s0 ++ [c]).dropWhile isWs ++ u
    rw [List.dropWhile_append, if_neg (by
      intro hcon
      exact h1 (List.isEmpty_iff.mp hcon))]
  constructor
  · rw [trim, h4, trimRight_append_self _ _ h3, trim, h3]
  · rw [trim, h3]
    exact h1

theorem trim_trim (t : List Char) : trim (trim t) = trim t := by
  by_cases h : trim t = []
  · rw [h]
    rfl
  · exact (segGood_trim t h).trim_eq

theorem trim_decomp (t : List Char) (h : trim t ≠ []) :
    ∃ s0 c, trim t = s0 ++ [c] ∧ isWs c = false := by
  refine ⟨(trim t).dropLast, (trim t).getLast h,
    (List.dropLast_append_getLast h).symm, ?_⟩
  have hg := segGood_trim t h
  have hR : (trim t).rdropWhile isWs = trim t := by
    rw [← trimRight_eq_rdropWhile]
    exact hg.2.2
  have := List.rdropWhile_last_not isWs (trim t) (by rw [hR]; exact h)
  simp only [hR] at this
  simpa using this

/-- Re-running `chunkText` on any extension of the trimmed text leaves every
chunk but the last unchanged: the producer may re-chunk the whole buffer each
iteration without altering segments it has already emitted. -/
theorem chunkText_take_stable (t ext : List Char) (m f : Nat) :
    (chunkText (trim t ++ ext) m f).take ((chunkText t m f).length - 1)
      = (chunkText t m f).take ((chunkText t m f).length - 1) := by
  by_cases h : trim t = []
  · simp [chunkText, h]
  · obtain ⟨s0, c, hdc, hc⟩ := trim_decomp t h
    have hext := trim_extend_of_last s0 c ext hc
    have htext : trim (trim t ++ ext) = trim t ++ trimRight ext := by
      rw [hdc]
      rw [hext.1, ← hdc, trim_trim, hdc]
    by_cases hE : trimRight ext = []
    · have heq : chunkText (trim t ++ ext) m f = chunkText t m f := by
        simp only [chunkText, htext, hE, List.append_nil]
      rw [heq]
    · have hne2 : trim (trim t ++ ext) ≠ [] := by
        rw [htext]
        simp [h]
      simp only [chunkText]
      rw [if_neg h, if_neg hne2, htext, hdc]
      simp only [splitRaw]
      rw [splitScan_append s0 c (trimRight ext) (some []) hc]
      cases hcond : (isTerm c && firstIsWs (trimRight ext)) with
      | true =>
        simp only [if_true]
        rw [List.foldl_append]
        exact chunkFinish_take_stable m f _ _
      | false =>
        simp only [Bool.false_eq_true, if_false]
        obtain ⟨acc2, hacc⟩ := scanState_append_last s0 c hc (some [])
        rw [hacc]
        obtain ⟨u, rest, hsome⟩ := splitScan_some_head (c :: acc2) (trimRight ext)
        rw [hsome]
        have hP := splitScan_eq_dropLast_append (some []) (s0 ++ [c])
        rw [hacc] at hP
        simp only [Option.getD] at hP
        generalize hP0 : (splitScan (some []) (s0 ++ [c])).dropLast = P0 at hP
        rw [hP]
        simp only [List.foldl_append, List.foldl_cons, List.foldl_nil]
        have hq := trim_extend_of_last acc2.reverse c u hc
        rw [List.reverse_cons]
        exact chunkStep_last_take_stable m f _ (acc2.reverse ++ [c])
          ((acc2.reverse ++ [c]) ++ u) rest hq.2 (by rw [hq.1]; simp)

/-! ### The narration extractor returns every complete pair, in order (claim C9) -/

theorem splitFirstCI_decomp {pat s pre post : List Char}
    (h : splitFirstCI pat s = some (pre, post)) :
    ∃ mid, s = pre ++ mid ++ post ∧ mid.map asciiLower = pat := by
  induction s generalizing pre post with
  | nil => simp [splitFirstCI] at h
  | cons c rest ih =>
    rw [splitFirstCI] at h
    by_cases hs : startsWithCI pat (c :: rest) = true
    · rw [if_pos hs] at h
      injection h with h2
      injection h2 with hpre hpost
      refine ⟨(c :: rest).take pat.length, ?_, ?_⟩
      · rw [← hpre, ← hpost]
        simp [List.take_append_drop]
      · have := of_decide_eq_true hs
        exact this
    · rw [if_neg hs] at h
      match hrec : splitFirstCI pat rest with
      | none => rw [hrec] at h; simp at h
      | some (pre2, post2) =>
        rw [hrec] at h
        injection h with h2
        injection h2 with hpre hpost
        obtain ⟨mid, hmid, hlow⟩ := ih hrec
        refine ⟨mid, ?_, hlow⟩
        rw [← hpre, ← hpost, hmid]
        simp

theorem splitFirstCI_pre {pat s pre post : List Char}
    (h : splitFirstCI pat s = some (pre, post)) : splitFirstCI pat pre = none := by
  induction s generalizing pre post with
  | nil => simp [splitFirstCI] at h
  | cons c rest ih =>
    rw [splitFirstCI] at h
    by_cases hs : startsWithCI pat (c :: rest) = true
    · rw [if_pos hs] at h
      injection h with h2
      injection h2 with hpre hpost
      rw [← hpre]
      rfl
    · rw [Bool.not_eq_true] at hs
      rw [if_neg (by rw [hs]; exact Bool.false_ne_true)] at h
      match hrec : splitFirstCI pat rest with
      | none => rw [hrec] at h; simp at h
      | some (pre2, post2) =>
        rw [hrec] at h
        injection h with h2
        injection h2 with hpre hpost
        have ih2 := ih hrec
        rw [← hpre]
        have hsw : startsWithCI pat (c :: pre2) = false := by
          by_contra hcon
          rw [Bool.not_eq_false] at hcon
          have hcon2 : ((c :: pre2).take pat.length).map asciiLower = pat := by
            have := of_decide_eq_true hcon
            exact this
          have hlen : pat.length ≤ (c :: pre2).length := by
            have hl := congrArg List.length hcon2
            rw [List.length_map, List.length_take] at hl
            omega
          obtain ⟨mid, hmid, _⟩ := splitFirstCI_decomp hrec
          have htake : (c :: rest).take pat.length = (c :: pre2).take pat.length := by
            rw [hmid]
            have hrw : c :: (pre2 ++ mid ++ post2) = (c :: pre2) ++ (mid ++ post2) := by
              simp
            rw [hrw, List.take_append_of_le_length hlen]
          have htrue : startsWithCI pat (c :: rest) = true := by
            unfold startsWithCI
            rw [htake]
            exact decide_eq_true hcon2
          rw [hs] at htrue
          exact Bool.noConfusion htrue
        rw [splitFirstCI]
        rw [if_neg (by rw [hsw]; exact Bool.false_ne_true), ih2]

theorem splitFirstCI_append_isSome {pat b : List Char} (a : List Char)
    (h : (splitFirstCI pat b).isSome) : (splitFirstCI pat (a ++ b)).isSome := by
  induction a with
  | nil => simpa using h
  | cons d a ih =>
    rw [List.cons_append, splitFirstCI]
    by_cases hs : startsWithCI pat (d :: (a ++ b)) = true
    · rw [if_pos hs]
      simp
    · rw [if_neg hs]
      match hrec : splitFirstCI pat (a ++ b) with
      | none => rw [hrec] at ih; simp at ih
      | some x => simp

theorem containsCI_suffix_eq_false {pat a b : List Char}
    (h : containsCI pat (a ++ b) = false) : containsCI pat b = false := by
  by_contra hcon
  rw [Bool.not_eq_false] at hcon
  unfold containsCI at hcon h
  have h3 := splitFirstCI_append_isSome a hcon
  rw [h] at h3
  exact Bool.false_ne_true h3

theorem splitFirstCI_append_exact (pat : List Char) (g o rest : List Char)
    (hp : pat ≠ [])
    (HB : ∀ k, k < pat.length → 0 < k → pat.drop k ≠ pat.take (pat.length - k))
    (hg : containsCI pat g = false) (ho : o.map asciiLower = pat) :
    splitFirstCI pat (g ++ o ++ rest) = some (g, rest) := by
  have holen : o.length = pat.length := by
    rw [← ho, List.length_map]
  induction g with
  | nil =>
    rcases o with _ | ⟨c, o2⟩
    · rw [List.length_nil] at holen
      exact absurd (List.eq_nil_of_length_eq_zero holen.symm) hp
    · rw [List.nil_append, List.cons_append, splitFirstCI]
      have hs : startsWithCI pat (c :: (o2 ++ rest)) = true := by
        unfold startsWithCI
        rw [decide_eq_true_iff, ← List.cons_append, ← holen, List.take_left, ho]
      rw [if_pos hs]
      have hdrop : (c :: (o2 ++ rest)).drop pat.length = rest := by
        rw [← List.cons_append, ← holen, List.drop_left]
      rw [hdrop]
  | cons d g ih =>
    have hg2 : containsCI pat g = false ∧ startsWithCI pat (d :: g) = false := by
      unfold containsCI at hg
      rw [splitFirstCI] at hg
      by_cases hs : startsWithCI pat (d :: g) = true
      · rw [if_pos hs] at hg
        simp at hg
      · refine ⟨?_, by simpa using hs⟩
        rw [if_neg hs] at hg
        unfold containsCI
        match hrec : splitFirstCI pat g with
        | none => rfl
        | some x => rw [hrec] at hg; simp at hg
    have hns : startsWithCI pat (d :: (g ++ (o ++ rest))) = false := by
      by_contra hcon
      rw [Bool.not_eq_false] at hcon
      have hcon2 : ((d :: (g ++ (o ++ rest))).take pat.length).map asciiLower = pat :=
        of_decide_eq_true hcon
      by_cases hlen : pat.length ≤ (d :: g).length
      · have htake : (d :: (g ++ (o ++ rest))).take pat.length
            = (d :: g).take pat.length := by
          rw [← List.cons_append]
          exact List.take_append_of_le_length hlen
        rw [htake] at hcon2
        have hsw : startsWithCI pat (d :: g) = true := by
          unfold startsWithCI
          rw [decide_eq_true_iff]
          exact hcon2
        rw [hg2.2] at hsw
        exact Bool.false_ne_true hsw
      · push_neg at hlen
        have hk0 : 0 < (d :: g).length := by simp
        have htake : (d :: (g ++ (o ++ rest))).take pat.length
            = (d :: g) ++ (o ++ rest).take (pat.length - (d :: g).length) := by
          rw [← List.cons_append, List.take_append_eq_append_take,
            List.take_of_length_le (le_of_lt hlen)]
        have htake2 : (o ++ rest).take (pat.length - (d :: g).length)
            = o.take (pat.length - (d :: g).length) := by
          exact List.take_append_of_le_length (by omega)
        rw [htake, htake2, List.map_append] at hcon2
        have hml : ((d :: g).map asciiLower).length = (d :: g).length := by
          rw [List.length_map]
        have hdrop := congrArg (List.drop ((d :: g).length)) hcon2
        rw [List.drop_left' hml] at hdrop
        rw [List.map_take, ho] at hdrop
        exact HB ((d :: g).length) hlen hk0 hdrop.symm
    have hassoc : (d :: g) ++ o ++ rest = d :: (g ++ (o ++ rest)) := by simp
    rw [hassoc, splitFirstCI, if_neg (by simp [hns])]
    have hih := ih hg2.1
    rw [List.append_assoc] at hih
    rw [hih]

theorem speakOpen_ne_nil : speakOpen ≠ [] := by decide

theorem speakClose_ne_nil : speakClose ≠ [] := by decide

theorem speakOpen_borderless :
    ∀ k, k < speakOpen.length → 0 < k →
      speakOpen.drop k ≠ speakOpen.take (speakOpen.length - k) := by decide

theorem speakClose_borderless :
    ∀ k, k < speakClose.length → 0 < k →
      speakClose.drop k ≠ speakClose.take (speakClose.length - k) := by decide

theorem extractLoop_match_none (fuel : Nat) (s : List Char)
    (hx : splitFirstCI speakOpen s = none) :
    extractLoop speakOpen speakClose (fuel + 1) s = [] := by
  simp only [extractLoop, hx]

theorem extractLoop_match_noclose (fuel : Nat) (s pre post : List Char)
    (hx : splitFirstCI speakOpen s = some (pre, post))
    (hy : splitFirstCI speakClose post = none) :
    extractLoop speakOpen speakClose (fuel + 1) s = [] := by
  simp only [extractLoop, hx, hy]

theorem extractLoop_match_pair (fuel : Nat) (s pre post inner after : List Char)
    (hx : splitFirstCI speakOpen s = some (pre, post))
    (hy : splitFirstCI speakClose post = some (inner, after)) :
    extractLoop speakOpen speakClose (fuel + 1) s
      = inner :: extractLoop speakOpen speakClose fuel after := by
  simp only [extractLoop, hx, hy]

/-- A well-formed narration block as it appears in the text: filler containing
no opening marker, an opening marker (in any case), a body containing no
closing marker, and a closing marker (in any case). -/
structure SpeakBlock where
  gap : List Char
  openTag : List Char
  body : List Char
  closeTag : List Char

def SpeakBlock.render (p : SpeakBlock) : List Char :=
  p.gap ++ p.openTag ++ p.body ++ p.closeTag

def SpeakBlock.Wf (p : SpeakBlock) : Prop :=
  containsCI speakOpen p.gap = false ∧ p.openTag.map asciiLower = speakOpen ∧
    containsCI speakClose p.body = false ∧ p.closeTag.map asciiLower = speakClose

/-- A string holding no complete marker pair: if it still contains an
opening marker, no closing marker follows the first one, so the exec loop of
narrationExtractor.ts finds no further match in it. -/
def NoPair (s : List Char) : Prop :=
  ∀ pre post, splitFirstCI speakOpen s = some (pre, post) →
    splitFirstCI speakClose post = none

theorem extractLoop_tail (fuel : Nat) (s : List Char) (h : NoPair s) :
    extractLoop speakOpen speakClose fuel s = [] := by
  match fuel with
  | 0 => rfl
  | fuel + 1 =>
    match hx : splitFirstCI speakOpen s with
    | none => exact extractLoop_match_none fuel s hx
    | some (pre, post) =>
      exact extractLoop_match_noclose fuel s pre post hx (h pre post hx)

theorem extractLoop_blocks (parts : List SpeakBlock) (tail : List Char) (fuel : Nat)
    (hw : ∀ p ∈ parts, p.Wf)
    (ht : NoPair tail)
    (hfuel : parts.length ≤ fuel) :
    extractLoop speakOpen speakClose fuel
        ((parts.map SpeakBlock.render).flatten ++ tail)
      = parts.map SpeakBlock.body := by
  induction parts generalizing fuel with
  | nil =>
    simp only [List.map_nil, List.flatten_nil, List.nil_append]
    exact extractLoop_tail fuel tail ht
  | cons p parts ih =>
    match fuel, hfuel with
    | fuel + 1, hfuel =>
      have hpw := hw p (by simp)
      have hsh : (p :: parts).map SpeakBlock.render
          = p.render :: parts.map SpeakBlock.render := rfl
      have harr : ((p :: parts).map SpeakBlock.render).flatten ++ tail
          = p.gap ++ p.openTag ++
            (p.body ++ p.closeTag ++ ((parts.map SpeakBlock.render).flatten ++ tail)) := by
        rw [hsh, List.flatten_cons]
        unfold SpeakBlock.render
        simp [List.append_assoc]
      have h1 := splitFirstCI_append_exact speakOpen p.gap p.openTag
        (p.body ++ p.closeTag ++ ((parts.map SpeakBlock.render).flatten ++ tail))
        speakOpen_ne_nil speakOpen_borderless hpw.1 hpw.2.1
      have h2 := splitFirstCI_append_exact speakClose p.body p.closeTag
        ((parts.map SpeakBlock.render).flatten ++ tail)
        speakClose_ne_nil speakClose_borderless hpw.2.2.1 hpw.2.2.2
      rw [harr]
      rw [extractLoop_match_pair fuel _ _ _ _ _ h1 h2]
      rw [ih fuel (fun q hq => hw q (List.mem_cons_of_mem p hq)) (by simpa using hfuel)]
      rfl

theorem renders_length (parts : List SpeakBlock) (hw : ∀ p ∈ parts, p.Wf) :
    parts.length ≤ ((parts.map SpeakBlock.render).flatten).length := by
  induction parts with
  | nil => simp
  | cons p parts ih =>
    simp only [List.map_cons, List.flatten_cons, List.length_append, List.length_cons]
    have h7 : p.openTag.length = 7 := by
      have h := congrArg List.length (hw p (by simp)).2.1
      rw [List.length_map] at h
      exact h
    have h1 : 1 ≤ p.render.length := by
      unfold SpeakBlock.render
      simp only [List.length_append]
      omega
    have h2 := ih (fun q hq => hw q (List.mem_cons_of_mem p hq))
    omega

/-- narrationExtractor.ts's `extractNarration` on any text made of complete
narration blocks followed by a pair-free remainder: it returns exactly the
trimmed body of every complete pair, in order of appearance, with blank
bodies skipped, joined by a blank line (and the empty string when there is
no complete pair). -/
theorem extractNarration_blocks (parts : List SpeakBlock) (tail : List Char)
    (hw : ∀ p ∈ parts, p.Wf)
    (ht : NoPair tail) :
    extractNarration ((parts.map SpeakBlock.render).flatten ++ tail)
      = List.intercalate ('\n' :: '\n' :: [])
          ((parts.map (fun p => trim p.body)).filter (· ≠ [])) := by
  unfold extractNarration
  rw [extractLoop_blocks parts tail _ hw ht (by
    have := renders_length parts hw
    simp only [List.length_append]
    omega)]
  rw [List.map_map]
  rfl

theorem exists_block_decomposition_aux (n : Nat) : ∀ s : List Char, s.length ≤ n →
    ∃ (parts : List SpeakBlock) (rest : List Char),
      s = (parts.map SpeakBlock.render).flatten ++ rest ∧
      (∀ p ∈ parts, p.Wf) ∧ NoPair rest := by
  induction n with
  | zero =>
    intro s hs
    have hnil : s = [] := List.length_eq_zero.mp (Nat.le_zero.mp hs)
    subst hnil
    exact ⟨[], [], rfl, by simp, fun pre post h => Option.noConfusion h⟩
  | succ n ih =>
    intro s hs
    match hx : splitFirstCI speakOpen s with
    | none =>
      refine ⟨[], s, rfl, by simp, fun pre post h => ?_⟩
      rw [hx] at h
      exact Option.noConfusion h
    | some (pre, post) =>
      match hy : splitFirstCI speakClose post with
      | none =>
        refine ⟨[], s, rfl, by simp, fun pre2 post2 h => ?_⟩
        rw [hx] at h
        injection h with h2
        injection h2 with hpre hpost
        rw [← hpost]
        exact hy
      | some (inner, after) =>
        obtain ⟨mid, hmid, hml⟩ := splitFirstCI_decomp hx
        obtain ⟨mid2, hmid2, hml2⟩ := splitFirstCI_decomp hy
        have hgap := splitFirstCI_pre hx
        have hbody := splitFirstCI_pre hy
        have hlen7 : mid.length = 7 := by
          have hl := congrArg List.length hml
          rw [List.length_map] at hl
          exact hl
        have hafter : after.length ≤ n := by
          have h1 := congrArg List.length hmid
          have h2 := congrArg List.length hmid2
          simp only [List.length_append] at h1 h2
          omega
        obtain ⟨parts, rest, hdec, hw, hnp⟩ := ih after hafter
        refine ⟨⟨pre, mid, inner, mid2⟩ :: parts, rest, ?_, ?_, hnp⟩
        · rw [hmid, hmid2, hdec]
          simp [SpeakBlock.render, List.append_assoc]
        · intro p hp
          rcases List.mem_cons.mp hp with h | h
          · subst h
            exact ⟨by simp [containsCI, hgap], hml,
              by simp [containsCI, hbody], hml2⟩
          · exact hw p h

/-- Every string splits as a list of well-formed complete narration blocks
followed by a remainder with no complete pair — the decomposition the exec
loop of narrationExtractor.ts walks. -/
theorem exists_block_decomposition (s : List Char) :
    ∃ (parts : List SpeakBlock) (rest : List Char),
      s = (parts.map SpeakBlock.render).flatten ++ rest ∧
      (∀ p ∈ parts, p.Wf) ∧ NoPair rest :=
  exists_block_decomposition_aux s.length s le_rfl

/-! ### The producer/consumer engine of ChunkedSynthesizer.stream (chunker.ts)

The two cooperating tasks of `stream` are modelled as a labelled transition
system.  One transition is one atomic block of JavaScript: the code that runs
between two suspension points (an `await`, a generator `yield`, or parking on
one of the three hand-rolled wake-up promises).  The caller's `push`, `flush`
and abort arrive as environment events, possible between any two blocks.
Audio buffers are opaque tokens (`Nat`); the backend is a function giving,
for each segment text, the buffers its async iterator yields and whether it
then raises (`for await` pulls them one suspension at a time). -/

/-- Producer control point: the suspension points of `produce`. -/
inductive PPC where
  | loop
  | awaitAudio (bufs : List Nat) (err : Bool) (rest : List (List Char)) (clen : Nat)
  | wantEnqueue (b : Nat) (bufs : List Nat) (err : Bool) (rest : List (List Char)) (clen : Nat)
  | parkedSpace (b : Nat) (bufs : List Nat) (err : Bool) (rest : List (List Char)) (clen : Nat)
  | parkedChange
  | done
  deriving DecidableEq

/-- Consumer control point: the suspension points of the consumer loop. -/
inductive CPC where
  | loop
  | yielded
  | waitChunk
  | finallyWait (err : Bool)
  | done (err : Bool)
  deriving DecidableEq

/-- The configuration `stream` reads on entry: the two settings, the
markdown preprocessing applied before chunking (out of scope here, hence a
parameter), and the TTS backend. -/
structure Config where
  narrationMode : Bool
  prefetchSize : Nat
  preprocess : List Char → List Char
  backend : List Char → List Nat × Bool

/-- The shared state of one `stream` call: the ChunkedSynthesizer fields
(`buffer`, `flushed`, `pendingChange`), the local state of the generator
(`queue`, `producerDone`, `producerError`, `emittedUpTo`), the abort signal,
both control points, and two histories for stating properties: the segment
texts passed to the backend and the buffers delivered to the caller. -/
structure MState where
  buffer : List Char
  flushed : Bool
  pendingChange : Bool
  aborted : Bool
  queue : List Nat
  emittedUpTo : Nat
  producerDone : Bool
  producerError : Bool
  ppc : PPC
  cpc : CPC
  synthLog : List (List Char)
  yieldLog : List Nat

/-- The chunk list the producer computes at the top of its loop:
`chunkText(preprocessForSpeech(raw))` where `raw` is the narration
extraction of the buffer in narration mode and the buffer itself otherwise. -/
def chunksOf (cfg : Config) (buffer : List Char) : List (List Char) :=
  chunkText (cfg.preprocess (if cfg.narrationMode then extractNarration buffer else buffer))

/-- The `ready` slice of the producer: all not-yet-emitted chunks when the
input is flushed and no narration marker is open, all but the last of them
otherwise (`chunks.slice(emittedUpTo)` vs
`chunks.slice(emittedUpTo, Math.max(0, chunks.length - 1))`). -/
def readyCore (cfg : Config) (buffer : List Char) (flushed : Bool)
    (emittedUpTo : Nat) : List (List Char) :=
  if flushed && !(cfg.narrationMode && hasIncompleteNarration buffer)
  then (chunksOf cfg buffer).drop emittedUpTo
  else ((chunksOf cfg buffer).take ((chunksOf cfg buffer).length - 1)).drop emittedUpTo

/-- `notifyChange` resolving a parked `waitForChange`. -/
def wakeChange : PPC → PPC
  | .parkedChange => .loop
  | p => p

/-- `notifyConsumer` resolving a parked `waitForChunk`. -/
def notifyC : CPC → CPC
  | .waitChunk => .loop
  | c => c

/-- `notifyProducer` resolving a parked `waitForSpace`. -/
def notifyP : PPC → PPC
  | .parkedSpace b bufs err rest clen => .wantEnqueue b bufs err rest clen
  | p => p

/-- `push(text)`: append and raise the change signal. -/
def doPush (s : MState) (t : List Char) : MState :=
  { s with buffer := s.buffer ++ t, pendingChange := true, ppc := wakeChange s.ppc }

/-- `flush()`: close the input and raise the change signal. -/
def doFlush (s : MState) : MState :=
  { s with flushed := true, pendingChange := true, ppc := wakeChange s.ppc }

/-- The `finally` block of `produce`: mark the producer done and wake the
consumer. -/
def finishP (s : MState) : MState :=
  { s with producerDone := true, ppc := .done, cpc := notifyC s.cpc }

/-- Observable labels: calls into the synthesizer, backend invocations,
enqueues, deliveries to the caller, and silent steps. -/
inductive MEvent where
  | push (t : List Char)
  | flush
  | abort
  | synth (c : List Char)
  | enqueue (b : Nat)
  | yieldB (b : Nat)
  | tau

/-- One atomic block of `ChunkedSynthesizer.stream`, labelled with what it
does.  Producer constructors follow `produce` line by line; consumer
constructors follow the generator's `while` loop; the first three are the
caller's interleaved calls. -/
inductive Step (cfg : Config) : MState → MEvent → MState → Prop where
  | push (s : MState) (t : List Char) :
      Step cfg s (.push t) (doPush s t)
  | flush (s : MState) :
      Step cfg s .flush (doFlush s)
  | abort (s : MState) :
      Step cfg s .abort { s with aborted := true }
  | ploopAbort (s : MState) (h1 : s.ppc = .loop) (h2 : s.aborted = true) :
      Step cfg s .tau (finishP s)
  | ploopDone (s : MState) (h1 : s.ppc = .loop) (h2 : s.aborted = false)
      (h3 : readyCore cfg s.buffer s.flushed s.emittedUpTo = [])
      (h4 : s.flushed = true) (h5 : (chunksOf cfg s.buffer).length ≤ s.emittedUpTo) :
      Step cfg s .tau (finishP s)
  | ploopPark (s : MState) (h1 : s.ppc = .loop) (h2 : s.aborted = false)
      (h3 : readyCore cfg s.buffer s.flushed s.emittedUpTo = [])
      (h4 : ¬(s.flushed = true ∧ (chunksOf cfg s.buffer).length ≤ s.emittedUpTo)) :
      Step cfg s .tau { s with pendingChange := false, ppc := .parkedChange }
  | ploopSynth (s : MState) (c : List Char) (rest : List (List Char))
      (h1 : s.ppc = .loop) (h2 : s.aborted = false)
      (h3 : readyCore cfg s.buffer s.flushed s.emittedUpTo = c :: rest) :
      Step cfg s (.synth c)
        { s with synthLog := s.synthLog ++ [c],
                 ppc := .awaitAudio (cfg.backend c).1 (cfg.backend c).2 rest
                   ((chunksOf cfg s.buffer).length) }
  | audioAbort (s : MState) (b : Nat) (bufs : List Nat) (err : Bool)
      (rest : List (List Char)) (clen : Nat)
      (h1 : s.ppc = .awaitAudio (b :: bufs) err rest clen) (h2 : s.aborted = true) :
      Step cfg s .tau (finishP s)
  | audioFull (s : MState) (b : Nat) (bufs : List Nat) (err : Bool)
      (rest : List (List Char)) (clen : Nat)
      (h1 : s.ppc = .awaitAudio (b :: bufs) err rest clen) (h2 : s.aborted = false)
      (h3 : cfg.prefetchSize ≤ s.queue.length) :
      Step cfg s .tau { s with ppc := .parkedSpace b bufs err rest clen }
  | audioEnq (s : MState) (b : Nat) (bufs : List Nat) (err : Bool)
      (rest : List (List Char)) (clen : Nat)
      (h1 : s.ppc = .awaitAudio (b :: bufs) err rest clen) (h2 : s.aborted = false)
      (h3 : s.queue.length < cfg.prefetchSize) :
      Step cfg s (.enqueue b)
        { s with queue := s.queue ++ [b], cpc := notifyC s.cpc,
                 ppc := .awaitAudio bufs err rest clen }
  | audioErr (s : MState) (rest : List (List Char)) (clen : Nat)
      (h1 : s.ppc = .awaitAudio [] true rest clen) :
      Step cfg s .tau { s with producerError := true, producerDone := true,
                               ppc := .done, cpc := notifyC s.cpc }
  | audioNextAbort (s : MState) (c : List Char) (rest2 : List (List Char)) (clen : Nat)
      (h1 : s.ppc = .awaitAudio [] false (c :: rest2) clen) (h2 : s.aborted = true) :
      Step cfg s .tau (finishP { s with emittedUpTo := s.emittedUpTo + 1 })
  | audioNextSynth (s : MState) (c : List Char) (rest2 : List (List Char)) (clen : Nat)
      (h1 : s.ppc = .awaitAudio [] false (c :: rest2) clen) (h2 : s.aborted = false) :
      Step cfg s (.synth c)
        { s with emittedUpTo := s.emittedUpTo + 1, synthLog := s.synthLog ++ [c],
                 ppc := .awaitAudio (cfg.backend c).1 (cfg.backend c).2 rest2 clen }
  | audioChunksDone (s : MState) (clen : Nat)
      (h1 : s.ppc = .awaitAudio [] false [] clen)
      (h2 : s.flushed = true) (h3 : clen ≤ s.emittedUpTo + 1) :
      Step cfg s .tau (finishP { s with emittedUpTo := s.emittedUpTo + 1 })
  | audioPark (s : MState) (clen : Nat)
      (h1 : s.ppc = .awaitAudio [] false [] clen)
      (h2 : ¬(s.flushed = true ∧ clen ≤ s.emittedUpTo + 1)) :
      Step cfg s .tau { s with emittedUpTo := s.emittedUpTo + 1,
                               pendingChange := false, ppc := .parkedChange }
  | wantFull (s : MState) (b : Nat) (bufs : List Nat) (err : Bool)
      (rest : List (List Char)) (clen : Nat)
      (h1 : s.ppc = .wantEnqueue b bufs err rest clen) (h2 : s.aborted = false)
      (h3 : cfg.prefetchSize ≤ s.queue.length) :
      Step cfg s .tau { s with ppc := .parkedSpace b bufs err rest clen }
  | wantAbort (s : MState) (b : Nat) (bufs : List Nat) (err : Bool)
      (rest : List (List Char)) (clen : Nat)
      (h1 : s.ppc = .wantEnqueue b bufs err rest clen) (h2 : s.aborted = true) :
      Step cfg s .tau (finishP s)
  | wantEnq (s : MState) (b : Nat) (bufs : List Nat) (err : Bool)
      (rest : List (List Char)) (clen : Nat)
      (h1 : s.ppc = .wantEnqueue b bufs err rest clen) (h2 : s.aborted = false)
      (h3 : s.queue.length < cfg.prefetchSize) :
      Step cfg s (.enqueue b)
        { s with queue := s.queue ++ [b], cpc := notifyC s.cpc,
                 ppc := .awaitAudio bufs err rest clen }
  | cloopAbort (s : MState) (h1 : s.cpc = .loop) (h2 : s.aborted = true) :
      Step cfg s .tau { s with cpc := .finallyWait false }
  | cloopYield (s : MState) (b : Nat) (q2 : List Nat)
      (h1 : s.cpc = .loop) (h2 : s.aborted = false) (h3 : s.queue = b :: q2) :
      Step cfg s (.yieldB b)
        { s with queue := q2, yieldLog := s.yieldLog ++ [b], cpc := .yielded }
  | cloopErr (s : MState) (h1 : s.cpc = .loop) (h2 : s.aborted = false)
      (h3 : s.queue = []) (h4 : s.producerDone = true) (h5 : s.producerError = true) :
      Step cfg s .tau { s with cpc := .finallyWait true }
  | cloopEnd (s : MState) (h1 : s.cpc = .loop) (h2 : s.aborted = false)
      (h3 : s.queue = []) (h4 : s.producerDone = true) (h5 : s.producerError = false) :
      Step cfg s .tau { s with cpc := .finallyWait false }
  | cloopWait (s : MState) (h1 : s.cpc = .loop) (h2 : s.aborted = false)
      (h3 : s.queue = []) (h4 : s.producerDone = false) :
      Step cfg s .tau { s with cpc := .waitChunk }
  | yieldResume (s : MState) (h1 : s.cpc = .yielded) :
      Step cfg s .tau { s with cpc := .loop, ppc := notifyP s.ppc }
  | finallyDone (s : MState) (e : Bool) (h1 : s.cpc = .finallyWait e)
      (h2 : s.producerDone = true) :
      Step cfg s .tau { s with cpc := .done e }

/-- The state at the first pull of the generator: whatever the caller pushed
or flushed so far, empty queue, both tasks at their loop tops. -/
def mkInit (buffer : List Char) (flushed pendingChange : Bool) : MState :=
  { buffer := buffer, flushed := flushed, pendingChange := pendingChange,
    aborted := false, queue := [], emittedUpTo := 0, producerDone := false,
    producerError := false, ppc := .loop, cpc := .loop,
    synthLog := [], yieldLog := [] }

/-- Reachability along any interleaving of task blocks and caller calls. -/
inductive Reach (cfg : Config) : MState → MState → Prop where
  | refl (s : MState) : Reach cfg s s
  | tail (s t u : MState) (e : MEvent) :
      Reach cfg s t → Step cfg t e u → Reach cfg s u

/-- Does the label belong to the caller rather than the two tasks? -/
def isEnvEvent : MEvent → Bool
  | .push _ => true
  | .flush => true
  | .abort => true
  | _ => false

/-- Reachability with the caller silent: only producer and consumer blocks
run (the caller already pushed and flushed everything before iterating). -/
inductive ReachQ (cfg : Config) : MState → MState → Prop where
  | refl (s : MState) : ReachQ cfg s s
  | tail (s t u : MState) (e : MEvent) :
      ReachQ cfg s t → Step cfg t e u → isEnvEvent e = false → ReachQ cfg s u

/-! ### Machine invariants -/

/-- Has the consumer committed to ending with an error? -/
def errOutcome : CPC → Bool
  | .finallyWait e => e
  | .done e => e
  | _ => false

theorem reach_queue_length_le (cfg : Config) (init s : MState)
    (h0 : init.queue.length ≤ cfg.prefetchSize)
    (h : Reach cfg init s) : s.queue.length ≤ cfg.prefetchSize := by
  induction h with
  | refl => exact h0
  | tail t u e hr hstep ih =>
    cases hstep <;> simp_all [doPush, doFlush, finishP] <;> omega

theorem step_after_abort (cfg : Config) (s : MState) (e : MEvent) (s2 : MState)
    (hstep : Step cfg s e s2) (h : s.aborted = true) :
    (∀ b, e ≠ .enqueue b) ∧ (∀ b, e ≠ .yieldB b) ∧
      (errOutcome s2.cpc = true → errOutcome s.cpc = true) := by
  cases hstep <;>
    simp_all [doPush, doFlush, finishP, errOutcome, notifyC, wakeChange, notifyP]
  all_goals
    (rename_i h1 h2
     cases hcpc : s.cpc <;> simp_all [notifyC, errOutcome])

theorem reach_error_ppc_done (cfg : Config) (B : List Char) (fl pc : Bool) (s : MState)
    (h : Reach cfg (mkInit B fl pc) s) : s.producerError = true → s.ppc = .done := by
  induction h with
  | refl => intro hco; simp [mkInit] at hco
  | tail t u e hr hstep ih =>
    intro herr
    cases hstep <;>
      simp_all [doPush, doFlush, finishP, wakeChange, notifyP, notifyC]

theorem readyCore_mem_good (cfg : Config) (buffer : List Char) (fl : Bool) (e : Nat)
    (c : List Char) (h : c ∈ readyCore cfg buffer fl e) : c ≠ [] ∧ trim c = c := by
  unfold readyCore at h
  split_ifs at h
  · exact chunkText_segGood _ _ _ c (List.mem_of_mem_drop h)
  · exact chunkText_segGood _ _ _ c (List.mem_of_mem_take (List.mem_of_mem_drop h))

/-- The pending chunk list stored in the producer control point. -/
def pcRest : PPC → List (List Char)
  | .awaitAudio _ _ rest _ => rest
  | .wantEnqueue _ _ _ rest _ => rest
  | .parkedSpace _ _ _ rest _ => rest
  | _ => []

theorem pcRest_wakeChange (p : PPC) : pcRest (wakeChange p) = pcRest p := by
  cases p <;> rfl

theorem pcRest_notifyP (p : PPC) : pcRest (notifyP p) = pcRest p := by
  cases p <;> rfl

theorem reach_synthLog_good (cfg : Config) (B : List Char) (fl pc : Bool) (s : MState)
    (h : Reach cfg (mkInit B fl pc) s) :
    (∀ c ∈ s.synthLog, c ≠ [] ∧ trim c = c) ∧
      (∀ c ∈ pcRest s.ppc, c ≠ [] ∧ trim c = c) := by
  induction h with
  | refl => simp [mkInit, pcRest]
  | tail t u e hr hstep ih =>
    cases hstep with
    | ploopSynth c rest h1 h2 h3 =>
      constructor
      · intro d hd
        rcases List.mem_append.mp hd with hd | hd
        · exact ih.1 d hd
        · rcases List.mem_singleton.mp hd with rfl
          exact readyCore_mem_good cfg t.buffer t.flushed t.emittedUpTo d
            (h3 ▸ List.mem_cons_self d rest)
      · intro d hd
        simp only [pcRest] at hd
        exact readyCore_mem_good cfg t.buffer t.flushed t.emittedUpTo d
          (h3 ▸ List.mem_cons_of_mem c hd)
    | audioNextSynth c rest2 clen h1 h2 =>
      constructor
      · intro d hd
        rcases List.mem_append.mp hd with hd | hd
        · exact ih.1 d hd
        · rcases List.mem_singleton.mp hd with rfl
          have h5 := ih.2 d
          rw [h1] at h5
          exact h5 (by simp [pcRest])
      · intro d hd
        simp only [pcRest] at hd
        have h5 := ih.2 d
        rw [h1] at h5
        simp only [pcRest] at h5
        exact h5 (List.mem_cons_of_mem c hd)
    | push t2 =>
      refine ⟨fun d hd => ih.1 d (by simpa [doPush] using hd), fun d hd => ih.2 d ?_⟩
      rw [← pcRest_wakeChange]
      simpa [doPush] using hd
    | flush =>
      refine ⟨fun d hd => ih.1 d (by simpa [doFlush] using hd), fun d hd => ih.2 d ?_⟩
      rw [← pcRest_wakeChange]
      simpa [doFlush] using hd
    | abort =>
      exact ⟨fun d hd => ih.1 d (by simpa using hd), fun d hd => ih.2 d (by simpa using hd)⟩
    | ploopAbort h1 h2 =>
      refine ⟨fun d hd => ih.1 d (by simpa [finishP] using hd), fun d hd => ?_⟩
      simp [finishP, pcRest] at hd
    | ploopDone h1 h2 h3 h4 h5 =>
      refine ⟨fun d hd => ih.1 d (by simpa [finishP] using hd), fun d hd => ?_⟩
      simp [finishP, pcRest] at hd
    | ploopPark h1 h2 h3 h4 =>
      refine ⟨fun d hd => ih.1 d (by simpa using hd), fun d hd => ?_⟩
      simp [pcRest] at hd
    | audioAbort b bufs err rest clen h1 h2 =>
      refine ⟨fun d hd => ih.1 d (by simpa [finishP] using hd), fun d hd => ?_⟩
      simp [finishP, pcRest] at hd
    | audioFull b bufs err rest clen h1 h2 h3 =>
      refine ⟨fun d hd => ih.1 d (by simpa using hd), fun d hd => ih.2 d ?_⟩
      rw [h1]
      simp only [pcRest] at hd ⊢
      exact hd
    | audioEnq b bufs err rest clen h1 h2 h3 =>
      refine ⟨fun d hd => ih.1 d (by simpa using hd), fun d hd => ih.2 d ?_⟩
      rw [h1]
      simp only [pcRest] at hd ⊢
      exact hd
    | audioErr rest clen h1 =>
      refine ⟨fun d hd => ih.1 d (by simpa using hd), fun d hd => ?_⟩
      simp [pcRest] at hd
    | audioNextAbort c rest2 clen h1 h2 =>
      refine ⟨fun d hd => ih.1 d (by simpa [finishP] using hd), fun d hd => ?_⟩
      simp [finishP, pcRest] at hd
    | audioChunksDone clen h1 h2 h3 =>
      refine ⟨fun d hd => ih.1 d (by simpa [finishP] using hd), fun d hd => ?_⟩
      simp [finishP, pcRest] at hd
    | audioPark clen h1 h2 =>
      refine ⟨fun d hd => ih.1 d (by simpa using hd), fun d hd => ?_⟩
      simp [pcRest] at hd
    | wantFull b bufs err rest clen h1 h2 h3 =>
      refine ⟨fun d hd => ih.1 d (by simpa using hd), fun d hd => ih.2 d ?_⟩
      rw [h1]
      simp only [pcRest] at hd ⊢
      exact hd
    | wantAbort b bufs err rest clen h1 h2 =>
      refine ⟨fun d hd => ih.1 d (by simpa [finishP] using hd), fun d hd => ?_⟩
      simp [finishP, pcRest] at hd
    | wantEnq b bufs err rest clen h1 h2 h3 =>
      refine ⟨fun d hd => ih.1 d (by simpa using hd), fun d hd => ih.2 d ?_⟩
      rw [h1]
      simp only [pcRest] at hd ⊢
      exact hd
    | cloopAbort h1 h2 =>
      exact ⟨fun d hd => ih.1 d (by simpa using hd), fun d hd => ih.2 d (by simpa using hd)⟩
    | cloopYield b q2 h1 h2 h3 =>
      exact ⟨fun d hd => ih.1 d (by simpa using hd), fun d hd => ih.2 d (by simpa using hd)⟩
    | cloopErr h1 h2 h3 h4 h5 =>
      exact ⟨fun d hd => ih.1 d (by simpa using hd), fun d hd => ih.2 d (by simpa using hd)⟩
    | cloopEnd h1 h2 h3 h4 h5 =>
      exact ⟨fun d hd => ih.1 d (by simpa using hd), fun d hd => ih.2 d (by simpa using hd)⟩
    | cloopWait h1 h2 h3 h4 =>
      exact ⟨fun d hd => ih.1 d (by simpa using hd), fun d hd => ih.2 d (by simpa using hd)⟩
    | yieldResume h1 =>
      refine ⟨fun d hd => ih.1 d (by simpa using hd), fun d hd => ih.2 d ?_⟩
      rw [← pcRest_notifyP]
      simpa using hd
    | finallyDone e2 h1 h2 =>
      exact ⟨fun d hd => ih.1 d (by simpa using hd), fun d hd => ih.2 d (by simpa using hd)⟩

/-! ### With everything pushed and flushed up front, the producer synthesizes
exactly the chunk list of the final buffer (claim C1) -/

theorem drop_eq_cons_facts {α : Type} {l : List α} {e : Nat} {c : α} {rest : List α}
    (h : l.drop e = c :: rest) :
    l.take e ++ [c] = l.take (e + 1) ∧ rest = l.drop (e + 1) ∧ e < l.length := by
  have hlt : e < l.length := by
    by_contra hc
    push_neg at hc
    rw [List.drop_eq_nil_of_le hc] at h
    exact List.noConfusion h
  refine ⟨?_, ?_, hlt⟩
  · have hget : l[e]? = some c := by
      have h4 := @List.getElem?_drop α l e 0
      rw [h, Nat.add_zero] at h4
      simpa using h4.symm
    rw [List.take_succ, hget]
    simp
  · have h3 := List.drop_drop 1 e l
    rw [h] at h3
    simpa using h3

theorem readyCore_flushed (cfg : Config) (hnarr : cfg.narrationMode = false)
    (B : List Char) (e : Nat) :
    readyCore cfg B true e = (chunksOf cfg B).drop e := by
  unfold readyCore
  rw [hnarr]
  simp

/-- Invariant of the synthesis-side run of claim C1: the producer walks the
chunk list of the (final) buffer in order, its log always a prefix of it. -/
def midInv (cfg : Config) (B : List Char) (synthLog : List (List Char))
    (emitted : Nat) (err : Bool) (rest : List (List Char)) (clen : Nat) : Prop :=
  err = false ∧ clen = (chunksOf cfg B).length ∧
    synthLog = (chunksOf cfg B).take (emitted + 1) ∧
    rest = (chunksOf cfg B).drop (emitted + 1) ∧
    emitted < (chunksOf cfg B).length

def c1Inv (cfg : Config) (B : List Char) (s : MState) : Prop :=
  s.buffer = B ∧ s.flushed = true ∧ s.aborted = false ∧
  match s.ppc with
  | .loop => s.synthLog = (chunksOf cfg B).take s.emittedUpTo
  | .awaitAudio _ err rest clen => midInv cfg B s.synthLog s.emittedUpTo err rest clen
  | .wantEnqueue _ _ err rest clen => midInv cfg B s.synthLog s.emittedUpTo err rest clen
  | .parkedSpace _ _ err rest clen => midInv cfg B s.synthLog s.emittedUpTo err rest clen
  | .parkedChange => False
  | .done => s.synthLog = chunksOf cfg B

theorem c1Inv_step (cfg : Config) (B : List Char)
    (hnarr : cfg.narrationMode = false) (hbk : ∀ c, (cfg.backend c).2 = false)
    (s u : MState) (e : MEvent)
    (hstep : Step cfg s e u) (henv : isEnvEvent e = false)
    (hinv : c1Inv cfg B s) : c1Inv cfg B u := by
  obtain ⟨hB, hfl, hab, hppc⟩ := hinv
  cases hstep with
  | push t2 => simp [isEnvEvent] at henv
  | flush => simp [isEnvEvent] at henv
  | abort => simp [isEnvEvent] at henv
  | ploopAbort h1 h2 => rw [hab] at h2; exact absurd h2 (by simp)
  | ploopDone h1 h2 h3 h4 h5 =>
    simp only [h1] at hppc
    refine ⟨hB, hfl, hab, ?_⟩
    simp only [finishP]
    rw [hppc, List.take_of_length_le]
    rw [hB] at h5
    exact h5
  | ploopPark h1 h2 h3 h4 =>
    rw [hB, hfl, readyCore_flushed cfg hnarr, List.drop_eq_nil_iff] at h3
    rw [hB] at h4
    exact absurd ⟨hfl, h3⟩ h4
  | ploopSynth c rest h1 h2 h3 =>
    simp only [h1] at hppc
    rw [hB, hfl, readyCore_flushed cfg hnarr] at h3
    obtain ⟨ht, hr, hlt⟩ := drop_eq_cons_facts h3
    refine ⟨hB, hfl, hab, ?_⟩
    simp only [midInv]
    refine ⟨hbk c, by rw [hB], ?_, hr, hlt⟩
    rw [hppc, ht]
  | audioAbort b bufs err rest clen h1 h2 => rw [hab] at h2; exact absurd h2 (by simp)
  | audioFull b bufs err rest clen h1 h2 h3 =>
    simp only [h1, midInv] at hppc
    exact ⟨hB, hfl, hab, by simp only [midInv]; exact hppc⟩
  | audioEnq b bufs err rest clen h1 h2 h3 =>
    simp only [h1, midInv] at hppc
    exact ⟨hB, hfl, hab, by simp only [midInv]; exact hppc⟩
  | audioErr rest clen h1 =>
    simp only [h1, midInv] at hppc
    exact absurd hppc.1 (by simp)
  | audioNextAbort c rest2 clen h1 h2 => rw [hab] at h2; exact absurd h2 (by simp)
  | audioNextSynth c rest2 clen h1 h2 =>
    simp only [h1, midInv] at hppc
    obtain ⟨herr, hclen, hlog, hrest, hlt⟩ := hppc
    obtain ⟨ht, hr, hlt2⟩ := drop_eq_cons_facts hrest.symm
    refine ⟨hB, hfl, hab, ?_⟩
    simp only [midInv]
    refine ⟨hbk c, hclen, ?_, hr, hlt2⟩
    rw [hlog, ht]
  | audioChunksDone clen h1 h2 h3 =>
    simp only [h1, midInv] at hppc
    obtain ⟨herr, hclen, hlog, hrest, hlt⟩ := hppc
    refine ⟨hB, hfl, hab, ?_⟩
    simp only [finishP]
    have hlen : (chunksOf cfg B).length ≤ s.emittedUpTo + 1 := by
      rw [← List.drop_eq_nil_iff, ← hrest]
    rw [hlog, List.take_of_length_le hlen]
  | audioPark clen h1 h2 =>
    simp only [h1, midInv] at hppc
    obtain ⟨herr, hclen, hlog, hrest, hlt⟩ := hppc
    have hlen : (chunksOf cfg B).length ≤ s.emittedUpTo + 1 := by
      rw [← List.drop_eq_nil_iff, ← hrest]
    exact absurd ⟨hfl, by omega⟩ h2
  | wantFull b bufs err rest clen h1 h2 h3 =>
    simp only [h1, midInv] at hppc
    exact ⟨hB, hfl, hab, by simp only [midInv]; exact hppc⟩
  | wantAbort b bufs err rest clen h1 h2 => rw [hab] at h2; exact absurd h2 (by simp)
  | wantEnq b bufs err rest clen h1 h2 h3 =>
    simp only [h1, midInv] at hppc
    exact ⟨hB, hfl, hab, by simp only [midInv]; exact hppc⟩
  | cloopAbort h1 h2 => rw [hab] at h2; exact absurd h2 (by simp)
  | cloopYield b q2 h1 h2 h3 => exact ⟨hB, hfl, hab, hppc⟩
  | cloopErr h1 h2 h3 h4 h5 => exact ⟨hB, hfl, hab, hppc⟩
  | cloopEnd h1 h2 h3 h4 h5 => exact ⟨hB, hfl, hab, hppc⟩
  | cloopWait h1 h2 h3 h4 => exact ⟨hB, hfl, hab, hppc⟩
  | yieldResume h1 =>
    refine ⟨hB, hfl, hab, ?_⟩
    cases hp : s.ppc with
    | parkedSpace b bufs err rest clen =>
      simp only [hp] at hppc
      simp only [notifyP, hp]
      exact hppc
    | loop => simp only [hp] at hppc; simp only [notifyP, hp]; exact hppc
    | awaitAudio bufs err rest clen =>
      simp only [hp] at hppc; simp only [notifyP, hp]; exact hppc
    | wantEnqueue b bufs err rest clen =>
      simp only [hp] at hppc; simp only [notifyP, hp]; exact hppc
    | parkedChange => simp only [hp] at hppc
    | done => simp only [hp] at hppc; simp only [notifyP, hp]; exact hppc
  | finallyDone e2 h1 h2 => exact ⟨hB, hfl, hab, hppc⟩

theorem c1Inv_reachQ (cfg : Config) (B : List Char) (pc : Bool)
    (hnarr : cfg.narrationMode = false) (hbk : ∀ c, (cfg.backend c).2 = false)
    (s : MState) (h : ReachQ cfg (mkInit B true pc) s) : c1Inv cfg B s := by
  induction h with
  | refl => exact ⟨rfl, rfl, rfl, rfl⟩
  | tail t u e hr hstep henv ih => exact c1Inv_step cfg B hnarr hbk t u e hstep henv ih

/-- C1: with narration mode off, a fault-free backend and the whole input
pushed and flushed before iteration, whenever the producer finishes, the
segments it sent to the backend are exactly the chunk list of the processed
buffer in order, and their concatenation restores every non-whitespace
character of the processed input, none dropped, none duplicated. -/
theorem c1_stream_order_preservation (cfg : Config) (B : List Char) (pc : Bool)
    (s : MState)
    (hnarr : cfg.narrationMode = false)
    (hbk : ∀ c, (cfg.backend c).2 = false)
    (h : ReachQ cfg (mkInit B true pc) s)
    (hdone : s.ppc = .done) :
    s.synthLog = chunkText (cfg.preprocess B) 135 60 ∧
    (joinSp s.synthLog).filter nonWs = (cfg.preprocess B).filter nonWs := by
  obtain ⟨hB, hfl, hab, hppc⟩ := c1Inv_reachQ cfg B pc hnarr hbk s h
  simp only [hdone] at hppc
  have hlog : s.synthLog = chunkText (cfg.preprocess B) 135 60 := by
    rw [hppc, chunksOf, hnarr]
    simp
  exact ⟨hlog, by rw [hlog, chunkText_join_filter]⟩

def c1cfg : Config := ⟨false, 2, id, fun c => ([c.length], false)⟩

def c1B : List Char := 'H' :: 'i' :: '.' :: []

theorem c1_order_witness : ∃ s : MState,
    ReachQ c1cfg (mkInit c1B true false) s ∧ s.ppc = .done ∧
    s.synthLog = chunkText (c1cfg.preprocess c1B) 135 60 ∧
    (joinSp s.synthLog).filter nonWs = (c1cfg.preprocess c1B).filter nonWs := by
  have r1 := ReachQ.tail _ _ _ _ (@ReachQ.refl c1cfg (mkInit c1B true false))
    (Step.ploopSynth (mkInit c1B true false) c1B [] rfl rfl (by decide)) rfl
  have r2 := ReachQ.tail _ _ _ _ r1
    (Step.audioEnq _ 3 [] false [] 1 (by decide) rfl (by decide)) rfl
  have r3 := ReachQ.tail _ _ _ _ r2
    (Step.audioChunksDone _ 1 (by decide) rfl (by decide)) rfl
  refine ⟨_, r3, rfl, ?_⟩
  exact c1_stream_order_preservation c1cfg c1B false _ rfl (fun _ => rfl) r3 rfl

/-! ### Claim theorems -/

/-- C7: chunkText is pure, deterministic and prefix-stable on growing text:
for any extension of a text whose trimmed content it keeps as a prefix, all
chunks before the last already-computed one are unchanged, element-wise and
in order, so re-chunking the grown buffer never changes a segment the
producer already emitted. -/
theorem c7_chunk_prefix_stability (t ext : List Char) (m f : Nat) :
    (chunkText (trim t ++ ext) m f).take ((chunkText t m f).length - 1)
      = (chunkText t m f).take ((chunkText t m f).length - 1) :=
  chunkText_take_stable t ext m f

/-- C5: from a fresh stream start with capacity at least one, the bounded
queue never holds more than prefetchSize buffers, at every reachable state
of every interleaving of the two tasks and the caller. -/
theorem c5_queue_bound (cfg : Config) (B : List Char) (fl pc : Bool) (s : MState)
    (_hcap : 1 ≤ cfg.prefetchSize)
    (h : Reach cfg (mkInit B fl pc) s) : s.queue.length ≤ cfg.prefetchSize :=
  reach_queue_length_le cfg (mkInit B fl pc) s (by simp [mkInit]) h

theorem c5_queue_bound_witness :
    1 ≤ c1cfg.prefetchSize ∧ (mkInit [] true false).queue.length ≤ c1cfg.prefetchSize :=
  ⟨by decide, c5_queue_bound c1cfg [] true false _ (by decide) (Reach.refl _)⟩

theorem aborted_persists (cfg : Config) (s s2 : MState) (e : MEvent)
    (hstep : Step cfg s e s2) (hab : s.aborted = true) : s2.aborted = true := by
  cases hstep <;> simp_all [doPush, doFlush, finishP]

/-- C6: once the cancellation token is set it stays set, and no step taken
from a cancelled state enqueues a buffer into the bounded queue or yields
one to the caller, nor does it introduce an error outcome the consumer did
not already have. -/
theorem c6_cancellation_safety (cfg : Config) (s s2 : MState) (e : MEvent)
    (hstep : Step cfg s e s2) (hab : s.aborted = true) :
    s2.aborted = true ∧ (∀ b, e ≠ .enqueue b) ∧ (∀ b, e ≠ .yieldB b) ∧
    (errOutcome s2.cpc = true → errOutcome s.cpc = true) := by
  obtain ⟨h1, h2, h3⟩ := step_after_abort cfg s e s2 hstep hab
  exact ⟨aborted_persists cfg s s2 e hstep hab, h1, h2, h3⟩

def c6s : MState := { mkInit [] true false with aborted := true }

theorem c6_cancellation_witness :
    (finishP c6s).aborted = true ∧ (∀ b, MEvent.tau ≠ .enqueue b) ∧
    (∀ b, MEvent.tau ≠ .yieldB b) ∧
    (errOutcome (finishP c6s).cpc = true → errOutcome c6s.cpc = true) :=
  c6_cancellation_safety c1cfg c6s (finishP c6s) .tau
    (Step.ploopAbort c6s rfl rfl) rfl

/-- C10: every segment the producer ever passes to the backend is nonempty
and free of leading and trailing whitespace, in every reachable state of
every run under every configuration; and chunkText returns no chunks at all
on empty or whitespace-only input, so the backend is never invoked with
blank text. -/
theorem c10_segments_nonblank :
    (∀ (cfg : Config) (B : List Char) (fl pc : Bool) (s : MState),
        Reach cfg (mkInit B fl pc) s →
        ∀ c ∈ s.synthLog, c ≠ [] ∧ trim c = c) ∧
    (∀ (t : List Char) (m f : Nat), trim t = [] → chunkText t m f = []) := by
  constructor
  · intro cfg B fl pc s h c hc
    exact (reach_synthLog_good cfg B fl pc s h).1 c hc
  · intro t m f h
    simp [chunkText, h]

/-- C9: for every input string, extractNarration returns the trimmed inner
contents of every complete narration-marker pair (matched case-insensitively,
each opening marker paired with the nearest subsequent closing marker), in
order of appearance, joined by a blank line, with blank bodies skipped: the
string decomposes into well-formed blocks followed by a remainder holding no
complete pair, and the result is exactly the joined trimmed bodies of those
blocks — hence the empty string when the input contains no complete pair. -/
theorem c9_extract_narration_spec (s : List Char) :
    ∃ (parts : List SpeakBlock) (rest : List Char),
      s = (parts.map SpeakBlock.render).flatten ++ rest ∧
      (∀ p ∈ parts, p.Wf) ∧ NoPair rest ∧
      extractNarration s
        = List.intercalate ('\n' :: '\n' :: [])
            ((parts.map (fun p => trim p.body)).filter (· ≠ [])) := by
  obtain ⟨parts, rest, hdec, hw, hnp⟩ := exists_block_decomposition s
  refine ⟨parts, rest, hdec, hw, hnp, ?_⟩
  rw [hdec]
  exact extractNarration_blocks parts rest hw hnp

theorem c9_extract_witness :
    (∃ (parts : List SpeakBlock) (rest : List Char),
      "</speak><speak>".data = (parts.map SpeakBlock.render).flatten ++ rest ∧
      (∀ p ∈ parts, p.Wf) ∧ NoPair rest ∧
      extractNarration ("</speak><speak>".data)
        = List.intercalate ('\n' :: '\n' :: [])
            ((parts.map (fun p => trim p.body)).filter (· ≠ []))) ∧
    extractNarration ("</speak><speak>".data) = [] ∧
    extractNarration ("x<speak> hi </speak><SPEAK>  </SPEAK><speak>bye</speak><speak>".data)
      = 'h' :: 'i' :: '\n' :: '\n' :: 'b' :: 'y' :: 'e' :: [] :=
  ⟨c9_extract_narration_spec ("</speak><speak>".data), by decide, by decide⟩

def c2cfg : Config := ⟨true, 2, id, fun c => ([c.length], false)⟩

def c2B : List Char := "<speak>A! ".data ++ List.replicate 59 'B' ++ ".</speak><speak>".data

/-- C2 counterexample: with narration mode on and an open marker in the
buffer, a synthesis step is nevertheless enabled — the extracted narration
chunks into two pieces and the producer sends the first one to the backend. -/
theorem c2_narration_gating_counterexample :
    c2cfg.narrationMode = true ∧ hasIncompleteNarration c2B = true ∧
    ∃ s2, Step c2cfg (mkInit c2B true false) (.synth ("A!".data)) s2 :=
  ⟨rfl, by decide, ⟨_, Step.ploopSynth _ ("A!".data) [] rfl rfl (by decide)⟩⟩

/-- C2 (amended): with narration mode on and an unterminated marker in the
buffer, the producer holds back only the final chunk of the extracted
narration: the ready list is every not-yet-emitted chunk except the last,
and it is empty precisely when at most one chunk is not yet emitted — not
zero segments in general. -/
theorem c2_narration_gating_amended (cfg : Config) (buffer : List Char)
    (fl : Bool) (e : Nat)
    (hn : cfg.narrationMode = true) (hi : hasIncompleteNarration buffer = true) :
    readyCore cfg buffer fl e
        = ((chunksOf cfg buffer).take ((chunksOf cfg buffer).length - 1)).drop e ∧
    (readyCore cfg buffer fl e = [] ↔ (chunksOf cfg buffer).length ≤ e + 1) := by
  have h1 : readyCore cfg buffer fl e
      = ((chunksOf cfg buffer).take ((chunksOf cfg buffer).length - 1)).drop e := by
    unfold readyCore
    rw [hn, hi]
    simp
  refine ⟨h1, ?_⟩
  rw [h1, List.drop_eq_nil_iff, List.length_take]
  omega

theorem c2_narration_gating_witness :
    c2cfg.narrationMode = true ∧ hasIncompleteNarration c2B = true ∧
    (readyCore c2cfg c2B true 0
        = ((chunksOf c2cfg c2B).take ((chunksOf c2cfg c2B).length - 1)).drop 0 ∧
     (readyCore c2cfg c2B true 0 = [] ↔ (chunksOf c2cfg c2B).length ≤ 0 + 1)) :=
  ⟨rfl, by decide, c2_narration_gating_amended c2cfg c2B true 0 rfl (by decide)⟩

def c4cfg : Config := ⟨false, 2, id, fun _ => ([7], true)⟩

def c4B : List Char := "Hi.".data

/-- C4 counterexample: a buffer emitted by the backend during a synthesis
call that then fails is enqueued and yielded to the caller before the error
is noticed — a failed segment contributes a delivered buffer. -/
theorem c4_failed_segment_counterexample : ∃ s : MState,
    Reach c4cfg (mkInit c4B true false) s ∧ s.producerError = true ∧
    s.yieldLog = 7 :: [] := by
  have r1 := Reach.tail _ _ _ _ (@Reach.refl c4cfg (mkInit c4B true false))
    (Step.ploopSynth _ ("Hi.".data) [] rfl rfl (by decide))
  have r2 := Reach.tail _ _ _ _ r1
    (Step.audioEnq _ 7 [] true [] 1 (by decide) rfl (by decide))
  have r3 := Reach.tail _ _ _ _ r2 (Step.cloopYield _ 7 [] rfl rfl rfl)
  have r4 := Reach.tail _ _ _ _ r3 (Step.audioErr _ [] 1 rfl)
  exact ⟨_, r4, rfl, rfl⟩

/-- C4 (amended): once the producer has recorded a synthesis error it takes
no further synthesis or enqueue step; but buffers the failing call emitted
before raising — already enqueued, possibly already yielded — are not
discarded, so a failed segment can contribute delivered buffers. -/
theorem c4_failed_segment_amended (cfg : Config) (B : List Char) (fl pc : Bool)
    (s s2 : MState) (e : MEvent)
    (hr : Reach cfg (mkInit B fl pc) s) (herr : s.producerError = true)
    (hstep : Step cfg s e s2) :
    (∀ c, e ≠ .synth c) ∧ (∀ b, e ≠ .enqueue b) := by
  have hd := reach_error_ppc_done cfg B fl pc s hr herr
  cases hstep <;> simp_all

theorem c4_failed_segment_witness :
    (∀ c, MEvent.tau ≠ MEvent.synth c) ∧ (∀ b, MEvent.tau ≠ MEvent.enqueue b) := by
  have r1 := Reach.tail _ _ _ _ (@Reach.refl c4cfg (mkInit c4B true false))
    (Step.ploopSynth _ ("Hi.".data) [] rfl rfl (by decide))
  have r2 := Reach.tail _ _ _ _ r1
    (Step.audioEnq _ 7 [] true [] 1 (by decide) rfl (by decide))
  have r3 := Reach.tail _ _ _ _ r2 (Step.cloopYield _ 7 [] rfl rfl rfl)
  have r4 := Reach.tail _ _ _ _ r3 (Step.audioErr _ [] 1 rfl)
  exact c4_failed_segment_amended c4cfg c4B true false _ _ .tau r4 rfl
    (Step.yieldResume _ rfl)

def c8s : MState := { mkInit ("Hi.".data) true false with
  ppc := .done, producerDone := true }

/-- C8 counterexample: push() on an instance whose stream already reached
its terminal state is accepted as an ordinary step: it silently appends to
the buffer, leaves the producer finished, and raises nothing. -/
theorem c8_invalid_reuse_counterexample :
    c8s.ppc = PPC.done ∧ c8s.producerDone = true ∧
    Step c1cfg c8s (.push ("More.".data)) (doPush c8s ("More.".data)) ∧
    (doPush c8s ("More.".data)).buffer = c8s.buffer ++ "More.".data ∧
    (doPush c8s ("More.".data)).ppc = PPC.done :=
  ⟨rfl, rfl, Step.push c8s _, rfl, rfl⟩

/-- C8 (amended): there is no reuse guard: push() after the stream reached
its terminal state always succeeds as an ordinary step, silently appending
to the buffer and leaving the producer finished — no exception is raised. -/
theorem c8_invalid_reuse_amended (cfg : Config) (s : MState) (t : List Char)
    (hdone : s.ppc = PPC.done) :
    Step cfg s (.push t) (doPush s t) ∧
    (doPush s t).buffer = s.buffer ++ t ∧ (doPush s t).ppc = PPC.done := by
  refine ⟨Step.push s t, rfl, ?_⟩
  simp [doPush, wakeChange, hdone]

theorem c8_invalid_reuse_witness :
    Step c1cfg c8s (.push ("A.".data)) (doPush c8s ("A.".data)) ∧
    (doPush c8s ("A.".data)).buffer = c8s.buffer ++ "A.".data ∧
    (doPush c8s ("A.".data)).ppc = PPC.done :=
  c8_invalid_reuse_amended c1cfg c8s ("A.".data) rfl

def c3cfg : Config := ⟨false, 2, id, fun _ => ([], false)⟩

def c3B : List Char := "A! ".data ++ List.replicate 59 'B' ++ ".".data

/-- C3: the flush-during-synthesis interleaving parks the producer forever:
the change raised by flush() while the producer was inside its synthesis
block is cleared when the producer next prepares to wait, so its wait never
resolves, the final chunk is never synthesized, and only caller events could
ever unpark it. -/
theorem c3_missed_wakeup_trace : ∃ s : MState,
    Reach c3cfg (mkInit c3B false false) s ∧
    s.ppc = PPC.parkedChange ∧ s.pendingChange = false ∧ s.flushed = true ∧
    s.synthLog ≠ chunksOf c3cfg c3B ∧
    (∀ e s2, Step c3cfg s e s2 → s2.ppc = PPC.parkedChange ∨ isEnvEvent e = true) := by
  have r1 := Reach.tail _ _ _ _ (@Reach.refl c3cfg (mkInit c3B false false))
    (Step.ploopSynth _ ("A!".data) [] rfl rfl (by decide))
  have r2 := Reach.tail _ _ _ _ r1 (Step.flush _)
  have r3 := Reach.tail _ _ _ _ r2 (Step.audioPark _ 2 rfl (by decide))
  refine ⟨_, r3, rfl, rfl, rfl, by decide, ?_⟩
  intro e s2 hstep
  cases hstep <;> simp_all [isEnvEvent, notifyP]

